import Mathlib

/-!
Verification development for the binjs-ts AST codec.

The TypeScript sources are shallowly embedded:
* JS strings are modelled as lists of UTF-16 code units (`Str`); the
  built-in string comparison `<` is code-unit lexicographic (`strLt`).
* JS doubles are modelled by their 64-bit IEEE-754 bit patterns
  (`Nat` below `2 ^ 64`); the claims under study are about bit identity.
* JS 32-bit coercions (`|`, `&`, `>>`) are modelled explicitly
  (`toInt32`, `jsShr7`, ...) on `Int`.
* The byte-stream reader (`io.ts`, absent from the sources) is modelled
  from the spec where noted.
-/

namespace Binjs

/-- A JavaScript string: its list of UTF-16 code units. -/
abbrev Str := List Nat

/-- Embed a Lean string literal as a `Str` (all examples are ASCII, where
code points and UTF-16 units agree). -/
def s2u (s : String) : Str := s.data.map Char.toNat

/-- JavaScript `<` on strings: lexicographic comparison of code units,
a proper prefix is smaller. -/
def strLt : Str → Str → Bool
  | [], [] => false
  | [], _ :: _ => true
  | _ :: _, [] => false
  | a :: as, b :: bs => a < b || (a == b && strLt as bs)

/-- Insert `x` into `l`, keeping every element `y` for which `keep y x`
in front of `x`.  Models one step of `Array.prototype.sort` with a given
comparator (the result is sorted, and the insertion from the right end is
stable exactly like the ES2019 stable sort). -/
def insertP (keep : α → α → Bool) (x : α) : List α → List α
  | [] => [x]
  | y :: ys => if keep y x then y :: insertP keep x ys else x :: y :: ys

/-- `Array.prototype.sort` with comparator `keep` (see `insertP`). -/
def sortP (keep : α → α → Bool) (l : List α) : List α :=
  l.foldr (insertP keep) []

/-- A JavaScript value as the codec sees it: the primitives accepted by
the encoder, arrays, typed AST nodes (a runtime type name plus own
properties in insertion order), and `vother` for any other runtime value
(symbols, functions, ...). -/
inductive JSVal where
  | vtrue
  | vfalse
  | vnull
  | vundef
  | vstr (s : Str)
  | vnum (bits : Nat)
  | varr (xs : List JSVal)
  | vnode (kind : Str) (props : List (Str × JSVal))
  | vother
deriving Repr

/-- Association-list lookup: JS property access `o[k]` on a string-keyed
dictionary. -/
def lookupA : List (Str × α) → Str → Option α
  | [], _ => none
  | (k, v) :: rest, key => if k = key then some v else lookupA rest key

/-- Association-list update: JS property assignment `o[k] = v` (replaces
an existing binding in place, appends a new one). -/
def setA : List (Str × α) → Str → α → List (Str × α)
  | [], key, v => [(key, v)]
  | (k, w) :: rest, key, v =>
    if k = key then (k, v) :: rest else (k, w) :: setA rest key v

/-! ## `FixedSizeBufStream` (encode_binast.ts lines 22-105), for C10 -/

/-- `FIXED_SIZE` from encode_binast.ts line 20. -/
def FIXED_SIZE : Nat := 0x10000

/-- State of a `FixedSizeBufStream`.  The current `Uint8Array` is modelled
as a total function from index to byte (its length is the constant
`FIXED_SIZE`). -/
structure FixedSizeBufStream where
  priors : List (Nat → Nat)
  priorSize : Nat
  cur : Nat → Nat
  curOffset : Nat

/-- A freshly constructed `FixedSizeBufStream` (`Uint8Array`s are
zero-initialised). -/
def fsbInit : FixedSizeBufStream :=
  { priors := [], priorSize := 0, cur := fun _ => 0, curOffset := 0 }

/-- `FixedSizeBufStream.size` (encode_binast.ts lines 40-42). -/
def fsbSize (s : FixedSizeBufStream) : Nat := s.priorSize + s.curOffset

/-- `FixedSizeBufStream.writeByte` (encode_binast.ts lines 44-56).  The
argument is any JS integer; `Uint8Array` element assignment stores the
value modulo 256 and ignores out-of-bounds indices.  Returns the updated
stream and the function's return value. -/
def fsbWriteByte (s : FixedSizeBufStream) (b : Int) : FixedSizeBufStream × Nat :=
  let idx := s.curOffset
  let cur' := fun i => if i = idx ∧ idx < FIXED_SIZE then (b.emod 256).toNat else s.cur i
  let off' := idx + 1
  if off' = FIXED_SIZE then
    ({ priors := s.priors ++ [cur'], priorSize := s.priorSize + FIXED_SIZE,
       cur := fun _ => 0, curOffset := 0 }, 1)
  else
    ({ s with cur := cur', curOffset := off' }, 1)

/-- The byte cell that `fsbWriteByte` wrote into, read back from the
updated stream: cell `s.curOffset`, in the flushed buffer if the write
filled the current one. -/
def fsbWrittenCell (s : FixedSizeBufStream) (s' : FixedSizeBufStream) : Nat :=
  if s.curOffset + 1 = FIXED_SIZE then
    (s'.priors.getLastD (fun _ => 0)) s.curOffset
  else
    s'.cur s.curOffset

/-! ## `EncodingWriter.writeVarUint` (encode_binast.ts lines 137-148), for C2

JS `>>` and `&` coerce their operands with `ToInt32`, so the loop's
arithmetic is 32-bit even though the input may be any float-representable
integer.  `writeVarUint` is modelled with fuel because the source loop
does not terminate for some inputs (e.g. `2^31`). -/

/-- ECMAScript `ToInt32`: reduce modulo `2^32` into `[-2^31, 2^31)`. -/
def toInt32 (n : Int) : Int :=
  let m := n % 4294967296
  if m < 2147483648 then m else m - 4294967296

/-- JS `x & 0x7f` (on the ToInt32 of `x`): the low 7 bits. -/
def jsAnd127 (x : Int) : Int := toInt32 x % 128

/-- JS `x >> 7`: arithmetic shift, i.e. floor division of the ToInt32 of
`x` by 128. -/
def jsShr7 (x : Int) : Int := (toInt32 x).fdiv 128

/-- The do-while loop of `writeVarUint`: emit `uval & 0x7f`, shift, set
the continuation bit if the shifted value is truthy, repeat while truthy.
`none` means the loop has not terminated within `fuel` iterations. -/
def writeVarUintLoop : Nat → Int → Option (List Nat)
  | 0, _ => none
  | fuel + 1, uval =>
    let b := jsAnd127 uval
    let uval' := jsShr7 uval
    let b' := if uval' = 0 then b else b + 128
    if uval' = 0 then
      some [b'.toNat]
    else
      (writeVarUintLoop fuel uval').map (b'.toNat :: ·)

/-- `EncodingWriter.writeVarUint` on a non-negative integer input
(the function asserts `Number.isInteger(uval)` and `0 <= uval`).
64 iterations of fuel: every terminating run of the source loop on an
integer input finishes well within 64 iterations. -/
def writeVarUint (v : Nat) : Option (List Nat) :=
  writeVarUintLoop 64 (v : Int)

/-- The mathematical LEB128-style byte string for `v`: 7-bit groups,
least significant first, high bit set on every byte but the last.
This is the value `writeVarUint` actually produces on its correct domain. -/
def varUintBytes (v : Nat) : List Nat :=
  if h : v < 128 then [v]
  else (v % 128 + 128) :: varUintBytes (v / 128)
termination_by v
decreasing_by exact Nat.div_lt_self (by omega) (by omega)

/-- Bit length of `v` (`bitlen` in the spec's byte-length formula). -/
def bitlen (v : Nat) : Nat :=
  if h : v = 0 then 0 else bitlen (v / 2) + 1
termination_by v
decreasing_by exact Nat.div_lt_self (by omega) (by omega)

/-- Decoder-side errors (spec §7 plus internal conditions of the
embedding). -/
inductive DErr where
  | truncated
  | overflow
  | fewerBuiltins
  | tooOldBuiltins
  | bogusTag
  | internalErr
  | outOfFuel
deriving Repr, DecidableEq

/-- Modelled from the spec: `ReadStream.readVarUint` of the absent io.ts.
"Decoder reads bytes while the high bit is set; fails with `Truncated` if
the stream ends mid-varint or with `Overflow` if more than ⌈64/7⌉ bytes
arrive for a 64-bit result."  `budget` is the number of bytes that may
still arrive (starts at 10 = ⌈64/7⌉). -/
def readVarUintGo : Nat → List Nat → Nat → Nat → Except DErr (Nat × List Nat)
  | _, [], _, _ => .error .truncated
  | budget, b :: rest, shift, acc =>
    let acc' := acc + b % 128 * 2 ^ shift
    if b % 256 < 128 then .ok (acc', rest)
    else match budget with
      | 0 => .error .overflow
      | budget' + 1 => readVarUintGo budget' rest (shift + 7) acc'

/-- Modelled from the spec: `ReadStream.readVarUint` (io.ts is not among
the sources). -/
def readVarUint (bs : List Nat) : Except DErr (Nat × List Nat) :=
  readVarUintGo 9 bs 0 0

/-- Modelled from the spec: `ReadStream.readBytes n` of the absent io.ts —
take exactly `n` bytes, `Truncated` if the stream is shorter. -/
def readBytesN : Nat → List Nat → Except DErr (List Nat × List Nat)
  | 0, bs => .ok ([], bs)
  | _ + 1, [] => .error .truncated
  | n + 1, b :: bs =>
    match readBytesN n bs with
    | .error e => .error e
    | .ok (taken, rest) => .ok (b :: taken, rest)

/-! ## Floats (encode_binast.ts lines 114-123, part_000 lines 197-201), for C9

Doubles are embedded as their 64-bit patterns; `writeFloat` reinterprets
the `Float64Array` buffer as bytes, which on the little-endian platforms
the codec targets yields the 8 LE bytes of the IEEE-754 pattern. -/

/-- `EncodingWriter.writeFloat`: the 8 little-endian bytes of the 64-bit
pattern `f`. -/
def writeFloat (f : Nat) : List Nat :=
  [f % 256, f / 256 % 256, f / 256 ^ 2 % 256, f / 256 ^ 3 % 256,
   f / 256 ^ 4 % 256, f / 256 ^ 5 % 256, f / 256 ^ 6 % 256, f / 256 ^ 7 % 256]

/-- `Decoder.decodeFloat` (part_000 lines 197-201): read exactly 8 bytes
and reassemble the little-endian 64-bit pattern. -/
def decodeFloat (bs : List Nat) : Except DErr (Nat × List Nat) :=
  match readBytesN 8 bs with
  | .error e => .error e
  | .ok ([b0, b1, b2, b3, b4, b5, b6, b7], rest) =>
    .ok (b0 + 256 * b1 + 256 ^ 2 * b2 + 256 ^ 3 * b3 + 256 ^ 4 * b4
          + 256 ^ 5 * b5 + 256 ^ 6 * b6 + 256 ^ 7 * b7, rest)
  | .ok (_, _) => .error .internalErr

/-! ## Grammar recoverer (grammar.ts lines 36-83), for C4 -/

/-- Errors of `GrammarRecoverer.visit` as named by the spec (§7):
`InconsistentShape` for "encountered differing shapes of ...",
`UnsupportedPrimitive` for "expected a primitive; got ...". -/
inductive VisitErr where
  | inconsistentShape
  | unsupportedPrimitive
deriving Repr, DecidableEq

/-- The recovered grammar: node kind to list of property names (the
source stores this as string-keyed properties on the recoverer). -/
abbrev Rules := List (Str × List Str)

/-- grammar.ts line 62: the node's own property names, minus the reserved
`type` field, sorted with the default (code-unit lexicographic) sort. -/
def sortedNames (props : List (Str × JSVal)) : List Str :=
  sortP (fun y x => strLt y x) ((props.map Prod.fst).filter (fun n => n != s2u "type"))

theorem one_le_sizeOf_list [SizeOf α] (l : List α) : 1 ≤ sizeOf l := by
  cases l with
  | nil => simp
  | cons a t =>
    have h : sizeOf (a :: t) = 1 + sizeOf a + sizeOf t := by simp
    omega

theorem sizeOf_lookupA_getD_le (props : List (Str × JSVal)) (n : Str) :
    sizeOf ((lookupA props n).getD JSVal.vundef) ≤ sizeOf props := by
  induction props with
  | nil => simp [lookupA]
  | cons hd rest ih =>
    obtain ⟨k, v⟩ := hd
    simp only [lookupA]
    by_cases h : k = n
    · simp [h]
      omega
    · simp [h]
      omega

mutual

/-- `GrammarRecoverer.visit` (grammar.ts lines 47-82): arrays are
traversed element-wise; a typed node has its sorted property list
installed or checked against the recovered grammar and its property
values visited in that sorted order; primitives pass; anything else is
an unsupported primitive. -/
def visit (rules : Rules) : JSVal → Except VisitErr Rules
  | .varr xs => visitL rules xs
  | .vnode kind props =>
    let names := sortedNames props
    match lookupA rules kind with
    | some expected =>
      if expected ≠ names then .error .inconsistentShape
      else visitN (setA rules kind names) names props
    | none => visitN (setA rules kind names) names props
  | .vother => .error .unsupportedPrimitive
  | _ => .ok rules
termination_by v => ((sizeOf v, 0) : Nat × Nat)
decreasing_by
  all_goals simp_wf
  all_goals first
    | (apply Prod.Lex.right; omega)
    | (apply Prod.Lex.left
       first
         | omega
         | (have h1 := one_le_sizeOf_list kind; omega)
         | (have h1 := one_le_sizeOf_list k; omega)
         | (have h1 := sizeOf_lookupA_getD_le props n; omega))

/-- The `for (let child of node)` loop of `visit` on an array. -/
def visitL (rules : Rules) : List JSVal → Except VisitErr Rules
  | [] => .ok rules
  | x :: xs => do
    let r1 ← visit rules x
    visitL r1 xs
termination_by xs => ((sizeOf xs, 0) : Nat × Nat)
decreasing_by
  all_goals simp_wf
  all_goals first
    | (apply Prod.Lex.right; omega)
    | (apply Prod.Lex.left
       first
         | omega
         | (have h1 := one_le_sizeOf_list kind; omega)
         | (have h1 := one_le_sizeOf_list k; omega)
         | (have h1 := sizeOf_lookupA_getD_le props n; omega))

/-- The `for (let prop of props) this.visit(node[prop])` loop of `visit`
on a typed node. -/
def visitN (rules : Rules) : List Str → List (Str × JSVal) → Except VisitErr Rules
  | [], _ => .ok rules
  | n :: ns, props => do
    let r1 ← visit rules ((lookupA props n).getD .vundef)
    visitN r1 ns props
termination_by names props => ((sizeOf props + 1, names.length) : Nat × Nat)
decreasing_by
  all_goals simp_wf
  all_goals first
    | (apply Prod.Lex.right; omega)
    | (apply Prod.Lex.left
       first
         | omega
         | (have h1 := one_le_sizeOf_list kind; omega)
         | (have h1 := one_le_sizeOf_list k; omega)
         | (have h1 := sizeOf_lookupA_getD_le props n; omega))

end

/-! ## `TreeRePairApplicator.build` (encode_binast.ts lines 196-346),
for C1, C6, C7 -/

/-- A TreeRePair symbol.  In the source, terminals are distinct objects
interned in maps; here each terminal is identified by what it is interned
under (the kind name, the string, the first-seen number pattern), which
the source maps maintain injectively. -/
inductive Sym where
  | param (i : Nat)
  | snil
  | snull
  | scons
  | sfalse
  | strue
  | sundef
  | kind (k : Str)
  | strC (s : Str)
  | numC (bits : Nat)
  | meta (i : Nat)
deriving Repr, DecidableEq

/-- A TreeRePair tree node (`tr.Node`): a label and its ordered children. -/
inductive TN where
  | mk (label : Sym) (children : List TN)
deriving Repr

/-- Intern state of the applicator: `t_strings` and `t_numbers`, each a
JS `Map` in insertion order carrying use counts. -/
structure BSt where
  strs : List (Str × Nat)
  nums : List (Nat × Nat)
deriving Repr

/-- Is the 64-bit pattern a NaN (exponent all ones, non-zero mantissa)? -/
def isNaNBits (p : Nat) : Bool :=
  (p / 2 ^ 52 % 2 ^ 11 == 2047) && (p % 2 ^ 52 != 0)

/-- ECMAScript SameValueZero on doubles, as used by `Map` keys, expressed
as a kernel function on bit patterns: all NaNs are one key, and `-0` is
the same key as `+0`. -/
def canonSVZ (p : Nat) : Nat :=
  if isNaNBits p then 0x7FF8000000000000
  else if p = 0x8000000000000000 then 0 else p

/-- `this.t_strings.get(s)` hit path: bump the count of the entry with
key `s`, or `none` when absent. -/
def internStrGo : List (Str × Nat) → Str → Option (List (Str × Nat))
  | [], _ => none
  | (k, c) :: rest, s =>
    if k = s then some ((k, c + 1) :: rest)
    else (internStrGo rest s).map ((k, c) :: ·)

/-- `TreeRePairApplicator.str` (encode_binast.ts lines 327-335): intern on
first sight, increment the use count, return the terminal (identified by
the interned string). -/
def internStr (st : BSt) (s : Str) : BSt × Str :=
  match internStrGo st.strs s with
  | some l => ({ st with strs := l }, s)
  | none => ({ st with strs := st.strs ++ [(s, 1)] }, s)

/-- `this.t_numbers.get(n)` hit path under `Map`'s SameValueZero key
equality: bump the matching entry and return its stored key (the
first-seen bit pattern), or `none` when absent. -/
def internNumGo : List (Nat × Nat) → Nat → Option (List (Nat × Nat) × Nat)
  | [], _ => none
  | (k, c) :: rest, p =>
    if canonSVZ k = canonSVZ p then some ((k, c + 1) :: rest, k)
    else (internNumGo rest p).map (fun r => ((k, c) :: r.1, r.2))

/-- `TreeRePairApplicator.num` (encode_binast.ts lines 337-345): intern on
first sight, increment the use count, return the terminal.  The terminal
is identified by the entry's key, i.e. the first bit pattern interned
into its SameValueZero class. -/
def internNum (st : BSt) (p : Nat) : BSt × Nat :=
  match internNumGo st.nums p with
  | some (l, k) => ({ st with nums := l }, k)
  | none => ({ st with nums := st.nums ++ [(p, 1)] }, p)

/-- The JavaScript grammar threaded through the applicator: kind to
ordered property list, in insertion order. -/
abbrev GrammarL := List (Str × List Str)

mutual

/-- `TreeRePairApplicator.build` (encode_binast.ts lines 291-325):
translate a JS AST value into a TreeRePair tree, interning strings and
numbers.  An array is folded from its last element to its first
(`for (let i = node.length - 1; i >= 0; i--)`), wrapping the accumulated
tail and each element in a rank-2 `cons` node, starting from `nil`.
A typed node looks up its kind terminal (failing when absent) and builds
one child per grammar property, in grammar order. -/
def build (g : GrammarL) (st : BSt) : JSVal → Option (BSt × TN)
  | .vtrue => some (st, .mk .strue [])
  | .vfalse => some (st, .mk .sfalse [])
  | .vnull => some (st, .mk .snull [])
  | .vundef => some (st, .mk .sundef [])
  | .vstr s =>
    let r := internStr st s
    some (r.1, .mk (.strC r.2) [])
  | .vnum p =>
    let r := internNum st p
    some (r.1, .mk (.numC r.2) [])
  | .varr [] => some (st, .mk .snil [])
  | .varr (x :: xs) => do
    let (st1, rest) ← build g st (.varr xs)
    let (st2, tx) ← build g st1 x
    some (st2, .mk .scons [tx, rest])
  | .vnode k props => do
    let names ← lookupA g k
    let (st', cs) ← buildN g st names props
    some (st', .mk (.kind k) cs)
  | .vother => none
termination_by v => ((sizeOf v, 0) : Nat × Nat)
decreasing_by
  all_goals simp_wf
  all_goals first
    | (apply Prod.Lex.right; omega)
    | (apply Prod.Lex.left
       first
         | omega
         | (have h1 := one_le_sizeOf_list k; omega)
         | (have h1 := sizeOf_lookupA_getD_le props n; omega))

/-- The `for (let property of this.grammar.rules.get(kind))` loop of
`build`. -/
def buildN (g : GrammarL) (st : BSt) : List Str → List (Str × JSVal) → Option (BSt × List TN)
  | [], _ => some (st, [])
  | n :: ns, props => do
    let (st1, t) ← build g st ((lookupA props n).getD .vundef)
    let (st2, ts) ← buildN g st1 ns props
    some (st2, t :: ts)
termination_by names props => ((sizeOf props + 1, names.length) : Nat × Nat)
decreasing_by
  all_goals simp_wf
  all_goals first
    | (apply Prod.Lex.right; omega)
    | (apply Prod.Lex.left
       first
         | omega
         | (have h1 := one_le_sizeOf_list k; omega)
         | (have h1 := sizeOf_lookupA_getD_le props n; omega))

end

/-- Helper for stating C6: build the elements of a list in the source's
order (last element first, threading the intern state), returning the
element trees in list order. -/
def buildElems (g : GrammarL) (st : BSt) : List JSVal → Option (BSt × List TN)
  | [] => some (st, [])
  | x :: xs => do
    let (st1, ts) ← buildElems g st xs
    let (st2, t) ← build g st1 x
    some (st2, t :: ts)

/-! ## Encoder symbol code space (encode_binast.ts lines 386-515), for C3 -/

/-- The applicator/grammar state that `Encoder.encodeAbstractSyntax`
enumerates: parameters in discovery order over the productions,
meta-rules (with their ranks) in rule-map insertion order, grammar kinds
in insertion order, and the two intern pools in first-intern order with
use counts. -/
structure AppState where
  params : List Nat
  metas : List (Nat × Nat)
  kinds : List Str
  strs : List (Str × Nat)
  nums : List (Nat × Nat)

/-- The keys of `meta_by_size`: rank 0 is seeded at construction
(line 426), other ranks appear as encountered. -/
def ranksPresent (ms : List (Nat × Nat)) : List Nat :=
  (0 :: ms.map Prod.snd).dedup

/-- `Array.from(meta_by_size).sort((a, b) => a[0] - b[0])`: the present
ranks in ascending order. -/
def sortRanks (rs : List Nat) : List Nat :=
  sortP (fun y x => y < x) rs

/-- The rank-`r` bucket of `meta_by_size`, in discovery order. -/
def metaGroup (ms : List (Nat × Nat)) (r : Nat) : List (Nat × Nat) :=
  ms.filter (fun m => m.2 == r)

/-- The concatenation of the rank buckets of `ms` in the order given by
the rank list `L`. -/
def metaSeqOver (ms : List (Nat × Nat)) (L : List Nat) : List (Nat × Nat) :=
  L.foldr (fun r acc => metaGroup ms r ++ acc) []

/-- The meta-rules in the order `encodeAbstractSyntax` assigns their
codes: grouped by rank ascending, within a rank in discovery order. -/
def metaSeq (ms : List (Nat × Nat)) : List (Nat × Nat) :=
  metaSeqOver ms (sortRanks (ranksPresent ms))

/-- The per-rank counts the encoder writes into the rank histogram
(encode_binast.ts lines 435-451). -/
def histCounts (ms : List (Nat × Nat)) : List Nat :=
  (sortRanks (ranksPresent ms)).map (fun r => (metaGroup ms r).length)

/-- `Array.from(this.t_strings).sort(lexicographic)` (lines 460-469). -/
def sortStrsPairs (l : List (Str × Nat)) : List (Str × Nat) :=
  sortP (fun y x => strLt y.1 x.1) l

/-- `Array.from(this.t_numbers).sort((a, b) => b[1].count - a[1].count)`
(line 486): stable sort by descending use count. -/
def sortNumsPairs (l : List (Nat × Nat)) : List (Nat × Nat) :=
  sortP (fun y x => x.2 < y.2) l

/-- The complete symbol enumeration of `encodeAbstractSyntax`: the code of
a symbol is its index in this list (`add_symbol` assigns
`symbol_code_map.size`, lines 393-397). -/
def symList (a : AppState) : List Sym :=
  a.params.map Sym.param
    ++ [Sym.snil, Sym.snull, Sym.scons, Sym.sfalse, Sym.strue, Sym.sundef]
    ++ (metaSeq a.metas).map (fun m => Sym.meta m.1)
    ++ a.kinds.map Sym.kind
    ++ (sortStrsPairs a.strs).map (fun p => Sym.strC p.1)
    ++ (sortNumsPairs a.nums).map (fun p => Sym.numC p.1)

/-- The decoder's `rank_offset` array (part_000 lines 52-60) as a function
of the histogram counts it reads: `rank_offset[0] = 0`,
`rank_offset[i+1] = rank_offset[i] + count_i`. -/
def rankOffsetsD (hist : List Nat) : List Nat :=
  hist.foldl (fun acc c => acc ++ [acc.getLastD 0 + c]) [0]

/-- The decoder's `num_meta_rules = rank_offset[num_ranks]` (line 61). -/
def numMetaD (hist : List Nat) : Nat := (rankOffsetsD hist).getLastD 0

/-- The decoder's partition boundaries (part_000 lines 39-82), computed
from the header counts alone: parameter count, histogram, grammar size,
string count.  Returns (first built-in, first meta-rule, first grammar
rule, first string constant, first numeric constant). -/
def decoderFirsts (p : Nat) (hist : List Nat) (g : Nat) (s : Nat) :
    Nat × Nat × Nat × Nat × Nat :=
  let firstBuiltIn := p
  let firstMetaRule := firstBuiltIn + 6
  let firstGrammarRule := firstMetaRule + numMetaD hist
  let firstStringConstant := firstGrammarRule + g
  let firstNumericConstant := firstStringConstant + s
  (firstBuiltIn, firstMetaRule, firstGrammarRule, firstStringConstant,
   firstNumericConstant)

/-! ## The TreeRePair decoder (part_000), for C5, C7, C8 -/

/-- Decoder context: everything `decodeAbstractSyntax` derives from the
header before buffering and replaying trees. -/
structure DCtx where
  p : Nat
  ranks : List Nat
  offs : List Nat
  numMeta : Nat
  grammar : List (Str × List Str)
  strPool : List Str
  numPool : List Nat
  metaBodies : List (List Nat)

/-- part_000 line 40: `tag_nil = first_built_in_tag + 0`. -/
def tagNil (c : DCtx) : Nat := c.p

/-- part_000 line 41. -/
def tagNull (c : DCtx) : Nat := c.p + 1

/-- part_000 line 42. -/
def tagCons (c : DCtx) : Nat := c.p + 2

/-- part_000 line 43. -/
def tagFalse (c : DCtx) : Nat := c.p + 3

/-- part_000 line 44. -/
def tagTrue (c : DCtx) : Nat := c.p + 4

/-- part_000 line 45. -/
def tagUndef (c : DCtx) : Nat := c.p + 5

/-- part_000 line 47: `first_meta_rule`. -/
def firstMeta (c : DCtx) : Nat := c.p + 6

/-- part_000 line 62: `last_meta_rule`. -/
def lastMeta (c : DCtx) : Nat := c.p + 6 + c.numMeta - 1

/-- part_000 line 64. -/
def firstGrammar (c : DCtx) : Nat := c.p + 6 + c.numMeta

/-- part_000 line 66. -/
def lastGrammar (c : DCtx) : Nat := firstGrammar c + c.grammar.length - 1

/-- part_000 line 68. -/
def firstString (c : DCtx) : Nat := firstGrammar c + c.grammar.length

/-- part_000 line 70. -/
def lastString (c : DCtx) : Nat := firstString c + c.strPool.length - 1

/-- part_000 line 80. -/
def firstNum (c : DCtx) : Nat := firstString c + c.strPool.length

/-- part_000 line 82. -/
def lastNum (c : DCtx) : Nat := firstNum c + c.numPool.length - 1

/-- The scan of `meta_rank` (part_000 lines 89-98): find the first `j`
with `i < rank_offset[j+1]` and return `ranks[j]`. -/
def metaRankGo : List Nat → List Nat → Nat → Option Nat
  | r :: rs, o :: os, i => if i < o then some r else metaRankGo rs os i
  | _, _, _ => none

/-- `meta_rank` of meta-rule index `i` (`none` models the
`assert(false, 'unreachable')`). -/
def metaRankOf (c : DCtx) (i : Nat) : Option Nat :=
  metaRankGo c.ranks (c.offs.drop 1) i

/-- `buffer_tree` (part_000 lines 101-117): read `n` trees' worth of
VarUint tags into `acc`, recursing by each tag's known rank.  Recursion
depth is bounded by `fuel`. -/
def bufferTree : Nat → DCtx → Nat → List Nat → List Nat → Except DErr (List Nat × List Nat)
  | 0, _, _, _, _ => .error .outOfFuel
  | _ + 1, _, 0, bs, acc => .ok (acc, bs)
  | fuel + 1, c, n + 1, bs, acc =>
    match readVarUint bs with
    | .error e => .error e
    | .ok (tag, bs1) =>
      let acc1 := acc ++ [tag]
      if tag = tagCons c then
        match bufferTree fuel c 2 bs1 acc1 with
        | .error e => .error e
        | .ok (acc2, bs2) => bufferTree fuel c n bs2 acc2
      else if firstMeta c ≤ tag ∧ tag ≤ lastMeta c then
        match metaRankOf c (tag - firstMeta c) with
        | none => .error .internalErr
        | some r =>
          match bufferTree fuel c r bs1 acc1 with
          | .error e => .error e
          | .ok (acc2, bs2) => bufferTree fuel c n bs2 acc2
      else if firstGrammar c ≤ tag ∧ tag ≤ lastGrammar c then
        match c.grammar.get? (tag - firstGrammar c) with
        | none => .error .internalErr
        | some kp =>
          match bufferTree fuel c kp.2.length bs1 acc1 with
          | .error e => .error e
          | .ok (acc2, bs2) => bufferTree fuel c n bs2 acc2
      else
        bufferTree fuel c n bs1 acc1

/-- The meta-rule reading loop (part_000 lines 120-127): buffer each of
the `n` meta-rule bodies as its own token list. -/
def bufferMany (fuel : Nat) (c : DCtx) : Nat → List Nat → Except DErr (List (List Nat) × List Nat)
  | 0, bs => .ok ([], bs)
  | n + 1, bs =>
    match bufferTree fuel c 1 bs [] with
    | .error e => .error e
    | .ok (b1, bs1) =>
      match bufferMany fuel c n bs1 with
      | .error e => .error e
      | .ok (rest, bs2) => .ok (b1 :: rest, bs2)

mutual

/-- `replay_tree` (part_000 lines 131-191): recursive preorder replay of
a buffered token list with an array of actuals.  An exhausted iterator
yields the `assert(false, 'read a bogus tag')` failure; `cons` replays
head and tail and prepends; a parameter tag indexes the actuals; a
meta-rule tag replays its rank's worth of actuals and then its buffered
body; a grammar tag replays one subtree per property of the kind and
builds the node; string and numeric tags index their pools.  The result
is returned together with the rest of the token list. -/
def replayT : Nat → DCtx → List Nat → List JSVal → Except DErr (JSVal × List Nat)
  | 0, _, _, _ => .error .outOfFuel
  | _ + 1, _, [], _ => .error .bogusTag
  | fuel + 1, c, t :: rest, acts =>
    if t = tagNil c then .ok (.varr [], rest)
    else if t = tagNull c then .ok (.vnull, rest)
    else if t = tagCons c then
      match replayT fuel c rest acts with
      | .error e => .error e
      | .ok (e, r1) =>
        match replayT fuel c r1 acts with
        | .error e2 => .error e2
        | .ok (.varr vs, r2) => .ok (.varr (e :: vs), r2)
        | .ok (_, _) => .error .internalErr
    else if t = tagFalse c then .ok (.vfalse, rest)
    else if t = tagTrue c then .ok (.vtrue, rest)
    else if t = tagUndef c then .ok (.vundef, rest)
    else if t < c.p then
      if h : t < acts.length then .ok (acts.get ⟨t, h⟩, rest)
      else .error .internalErr
    else if firstMeta c ≤ t ∧ t ≤ lastMeta c then
      match metaRankOf c (t - firstMeta c) with
      | none => .error .internalErr
      | some rank =>
        match replayMany fuel c rank rest acts with
        | .error e => .error e
        | .ok (ruleActs, r1) =>
          match replayT fuel c ((c.metaBodies.get? (t - firstMeta c)).getD []) ruleActs with
          | .error e => .error e
          | .ok (v, _) => .ok (v, r1)
    else if firstGrammar c ≤ t ∧ t ≤ lastGrammar c then
      match c.grammar.get? (t - firstGrammar c) with
      | none => .error .internalErr
      | some kp =>
        match replayProps fuel c kp.2 rest acts with
        | .error e => .error e
        | .ok (pvs, r1) => .ok (.vnode kp.1 pvs, r1)
    else if firstString c ≤ t ∧ t ≤ lastString c then
      .ok (.vstr ((c.strPool.get? (t - firstString c)).getD []), rest)
    else if firstNum c ≤ t ∧ t ≤ lastNum c then
      if h : t - firstNum c < c.numPool.length then
        .ok (.vnum (c.numPool.get ⟨t - firstNum c, h⟩), rest)
      else .error .internalErr
    else .error .bogusTag

/-- The actuals-reading loop of a meta-rule tag (part_000 lines 163-166). -/
def replayMany : Nat → DCtx → Nat → List Nat → List JSVal → Except DErr (List JSVal × List Nat)
  | 0, _, _, _, _ => .error .outOfFuel
  | _ + 1, _, 0, toks, _ => .ok ([], toks)
  | fuel + 1, c, n + 1, toks, acts =>
    match replayT fuel c toks acts with
    | .error e => .error e
    | .ok (v, r1) =>
      match replayMany fuel c n r1 acts with
      | .error e => .error e
      | .ok (vs, r2) => .ok (v :: vs, r2)

/-- The property-reading loop of a grammar tag (part_000 lines 172-175):
one replayed subtree per property, in the kind's property order. -/
def replayProps : Nat → DCtx → List Str → List Nat → List JSVal → Except DErr (List (Str × JSVal) × List Nat)
  | 0, _, _, _, _ => .error .outOfFuel
  | _ + 1, _, [], toks, _ => .ok ([], toks)
  | fuel + 1, c, p :: ps, toks, acts =>
    match replayT fuel c toks acts with
    | .error e => .error e
    | .ok (v, r1) =>
      match replayProps fuel c ps r1 acts with
      | .error e => .error e
      | .ok (rest, r2) => .ok ((p, v) :: rest, r2)

end

/-- The histogram-reading loop (part_000 lines 57-60): each step reads a
rank delta and a count, extending `ranks` and `rank_offset`. -/
def readHistGo : Nat → List Nat → Nat → Nat → List Nat → List Nat → Except DErr ((List Nat × List Nat) × List Nat)
  | 0, bs, _, _, ranks, offs => .ok ((ranks, offs), bs)
  | cnt + 1, bs, lastRank, lastOff, ranks, offs =>
    match readVarUint bs with
    | .error e => .error e
    | .ok (dr, bs1) =>
      match readVarUint bs1 with
      | .error e => .error e
      | .ok (cn, bs2) =>
        readHistGo cnt bs2 (lastRank + dr + 1) (lastOff + cn)
          (ranks ++ [lastRank + dr + 1]) (offs ++ [lastOff + cn])

/-- Read `n` VarUints (the string length table, part_000 lines 73-75). -/
def readNVarUints : Nat → List Nat → Except DErr (List Nat × List Nat)
  | 0, bs => .ok ([], bs)
  | n + 1, bs =>
    match readVarUint bs with
    | .error e => .error e
    | .ok (v, bs1) =>
      match readNVarUints n bs1 with
      | .error e => .error e
      | .ok (vs, bs2) => .ok (v :: vs, bs2)

/-- Read the string bodies (part_000 lines 76-78); string constants are
kept as their raw byte lists. -/
def readStrBodies : List Nat → List Nat → Except DErr (List Str × List Nat)
  | [], bs => .ok ([], bs)
  | len :: lens, bs =>
    match readBytesN len bs with
    | .error e => .error e
    | .ok (s, bs1) =>
      match readStrBodies lens bs1 with
      | .error e => .error e
      | .ok (rest, bs2) => .ok (s :: rest, bs2)

/-- Read `n` numeric constants (part_000 lines 83-86). -/
def readFloats : Nat → List Nat → Except DErr (List Nat × List Nat)
  | 0, bs => .ok ([], bs)
  | n + 1, bs =>
    match decodeFloat bs with
    | .error e => .error e
    | .ok (f, bs1) =>
      match readFloats n bs1 with
      | .error e => .error e
      | .ok (fs, bs2) => .ok (f :: fs, bs2)

/-- The body of `Decoder.decodeAbstractSyntax` of the TreeRePair decoder
(part_000 lines 31-195) after the built-in-count check: histogram, pools,
meta-rule buffering, start-tree buffering and replay.  The grammar
argument is the result of `decodeGrammar` (the JSON header layer, which
uses the host's `JSON.parse`, is outside this embedding).  Note the
replayed start value is returned as is: there is no root-kind check in
this decoder. -/
def decodeRest (fuel : Nat) (g : List (Str × List Str)) (p : Nat) (b2 : List Nat) :
    Except DErr JSVal :=
  match readVarUint b2 with
  | .error e => .error e
  | .ok (nr1, b3) =>
    match readVarUint b3 with
    | .error e => .error e
    | .ok (off1, b4) =>
      match readHistGo nr1 b4 0 off1 [0] [0, off1] with
      | .error e => .error e
      | .ok ((ranks, offs), b5) =>
        let numMeta := offs.getLastD 0
        match readVarUint b5 with
        | .error e => .error e
        | .ok (numS, b6) =>
          match readNVarUints numS b6 with
          | .error e => .error e
          | .ok (lens, b7) =>
            match readStrBodies lens b7 with
            | .error e => .error e
            | .ok (strs, b8) =>
              match readVarUint b8 with
              | .error e => .error e
              | .ok (numF, b9) =>
                match readFloats numF b9 with
                | .error e => .error e
                | .ok (floats, b10) =>
                  let c0 : DCtx := { p := p, ranks := ranks, offs := offs,
                                     numMeta := numMeta, grammar := g,
                                     strPool := strs, numPool := floats,
                                     metaBodies := [] }
                  match bufferMany fuel c0 numMeta b10 with
                  | .error e => .error e
                  | .ok (bodies, b11) =>
                    match bufferTree fuel c0 1 b11 [] with
                    | .error e => .error e
                    | .ok (start, _) =>
                      match replayT fuel { c0 with metaBodies := bodies } start [] with
                      | .error e => .error e
                      | .ok (v, _) => .ok v

/-- `Decoder.decodeAbstractSyntax` of the TreeRePair decoder, header
checks: read the parameter count and the built-in count, fail on a count
below 6 (`not yet implemented`) or above 6 (`decoder too old`), then
continue with `decodeRest`. -/
def decodeAbstract (fuel : Nat) (g : List (Str × List Str)) (bs : List Nat) : Except DErr JSVal :=
  match readVarUint bs with
  | .error e => .error e
  | .ok (p, b1) =>
    match readVarUint b1 with
    | .error e => .error e
    | .ok (nb, b2) =>
      if nb < 6 then .error .fewerBuiltins
      else if nb ≠ 6 then .error .tooOldBuiltins
      else decodeRest fuel g p b2

/-! ## Helper lemmas: JS string order -/

theorem strLt_irrefl (a : Str) : strLt a a = false := by
  induction a with
  | nil => rfl
  | cons x xs ih => simp [strLt, ih]

theorem strLt_asymm (a : Str) : ∀ b, strLt a b = true → strLt b a = false := by
  induction a with
  | nil =>
    intro b h
    cases b with
    | nil => simp [strLt] at h
    | cons y ys => simp [strLt]
  | cons x xs ih =>
    intro b h
    cases b with
    | nil => simp [strLt] at h
    | cons y ys =>
      simp only [strLt, Bool.or_eq_true, Bool.and_eq_true, beq_iff_eq,
        decide_eq_true_eq] at h
      simp only [strLt, Bool.or_eq_false_iff, Bool.and_eq_false_iff]
      rcases h with h | ⟨rfl, h⟩
      · constructor
        · simp only [decide_eq_false_iff_not]
          omega
        · left
          simp only [beq_eq_false_iff_ne, ne_eq]
          omega
      · constructor
        · simp only [decide_eq_false_iff_not]
          omega
        · right
          exact ih ys h

theorem strLt_trans (a : Str) : ∀ b c, strLt a b = true → strLt b c = true → strLt a c = true := by
  induction a with
  | nil =>
    intro b c hab hbc
    cases b with
    | nil => simp [strLt] at hab
    | cons y ys =>
      cases c with
      | nil => simp [strLt] at hbc
      | cons z zs => simp [strLt]
  | cons x xs ih =>
    intro b c hab hbc
    cases b with
    | nil => simp [strLt] at hab
    | cons y ys =>
      cases c with
      | nil => simp [strLt] at hbc
      | cons z zs =>
        simp only [strLt, Bool.or_eq_true, Bool.and_eq_true, beq_iff_eq,
          decide_eq_true_eq] at hab hbc ⊢
        rcases hab with hab | ⟨rfl, hab⟩
        · rcases hbc with hbc | ⟨rfl, hbc⟩
          · left; omega
          · left; exact hab
        · rcases hbc with hbc | ⟨rfl, hbc⟩
          · left; exact hbc
          · right; exact ⟨rfl, ih ys zs hab hbc⟩

theorem strLt_total (a : Str) : ∀ b, a ≠ b → strLt a b = true ∨ strLt b a = true := by
  induction a with
  | nil =>
    intro b h
    cases b with
    | nil => exact absurd rfl h
    | cons y ys => left; simp [strLt]
  | cons x xs ih =>
    intro b h
    cases b with
    | nil => right; simp [strLt]
    | cons y ys =>
      by_cases hxy : x = y
      · subst hxy
        have hne : xs ≠ ys := by
          intro he
          exact h (by rw [he])
        rcases ih ys hne with h1 | h1
        · left
          simp [strLt, h1]
        · right
          simp [strLt, h1]
      · rcases Nat.lt_or_ge x y with h1 | h1
        · left
          simp only [strLt, Bool.or_eq_true, decide_eq_true_eq]
          left; exact h1
        · right
          simp only [strLt, Bool.or_eq_true, decide_eq_true_eq]
          left; omega

theorem strLt_false_iff (a b : Str) : strLt b a = false ↔ a = b ∨ strLt a b = true := by
  constructor
  · intro h
    by_cases he : a = b
    · exact Or.inl he
    · rcases strLt_total a b he with h1 | h1
      · exact Or.inr h1
      · exact absurd h1 (by simp [h])
  · intro h
    rcases h with rfl | h1
    · exact strLt_irrefl a
    · exact strLt_asymm _ _ h1

theorem strLe_trans {a b c : Str} (hab : strLt b a = false) (hbc : strLt c b = false) :
    strLt c a = false := by
  rcases (strLt_false_iff a b).1 hab with rfl | hab'
  · exact hbc
  · rcases (strLt_false_iff b c).1 hbc with rfl | hbc'
    · exact hab
    · by_cases hca : strLt c a = true
      · have hac := strLt_trans a b c hab' hbc'
        have hcc := strLt_trans c a c hca hac
        rw [strLt_irrefl] at hcc
        cases hcc
      · simp only [Bool.not_eq_true] at hca
        exact hca

/-! ## Helper lemmas: the comparator sort -/

theorem insertP_perm (keep : α → α → Bool) (x : α) (l : List α) :
    List.Perm (insertP keep x l) (x :: l) := by
  induction l with
  | nil => exact List.Perm.refl _
  | cons y ys ih =>
    simp only [insertP]
    by_cases h : keep y x
    · simp only [h, if_true]
      exact (ih.cons y).trans (List.Perm.swap x y ys)
    · simp [h]

theorem sortP_perm (keep : α → α → Bool) (l : List α) : List.Perm (sortP keep l) l := by
  induction l with
  | nil => exact List.Perm.refl _
  | cons x xs ih =>
    simp only [sortP, List.foldr_cons]
    exact (insertP_perm keep x _).trans (ih.cons x)

theorem insertP_pairwise (R : α → α → Prop) (keep : α → α → Bool)
    (htrans : ∀ a b c, R a b → R b c → R a c)
    (hT : ∀ y x, keep y x = true → R y x)
    (hF : ∀ y x, keep y x = false → R x y)
    (x : α) (l : List α) (hl : l.Pairwise R) :
    (insertP keep x l).Pairwise R := by
  induction l with
  | nil => simp [insertP]
  | cons y ys ih =>
    rcases List.pairwise_cons.1 hl with ⟨hy, hys⟩
    simp only [insertP]
    by_cases h : keep y x
    · simp only [h, if_true, List.pairwise_cons]
      refine ⟨?_, ih hys⟩
      intro z hz
      have hz' : z ∈ x :: ys := (insertP_perm keep x ys).mem_iff.1 hz
      rcases List.mem_cons.1 hz' with rfl | hz'
      · exact hT y z h
      · exact hy z hz'
    · simp only [h, if_false, List.pairwise_cons]
      have hxy : R x y := hF y x (by simpa using h)
      constructor
      · intro z hz
        rcases List.mem_cons.1 hz with rfl | hz'
        · exact hxy
        · exact htrans x y z hxy (hy z hz')
      · exact hl

theorem sortP_pairwise (R : α → α → Prop) (keep : α → α → Bool)
    (htrans : ∀ a b c, R a b → R b c → R a c)
    (hT : ∀ y x, keep y x = true → R y x)
    (hF : ∀ y x, keep y x = false → R x y)
    (l : List α) : (sortP keep l).Pairwise R := by
  induction l with
  | nil => simp [sortP]
  | cons x xs ih => exact insertP_pairwise R keep htrans hT hF x _ ih

theorem insertP_eq_takeWhile (keep : α → α → Bool) (x : α) (l : List α) :
    insertP keep x l = l.takeWhile (keep · x) ++ x :: l.dropWhile (keep · x) := by
  induction l with
  | nil => simp [insertP]
  | cons y ys ih =>
    simp only [insertP, List.takeWhile, List.dropWhile]
    by_cases h : keep y x <;> simp [h, ih]

theorem insertP_filter_pos (keep : α → α → Bool) (p : α → Bool) (x : α) (l : List α)
    (hp : ∀ y ∈ l, keep y x = true → p y = false) (hx : p x = true) :
    (insertP keep x l).filter p = x :: l.filter p := by
  rw [insertP_eq_takeWhile]
  have htw : (l.takeWhile (keep · x)).filter p = [] := by
    rw [List.filter_eq_nil_iff]
    intro y hy
    have hmem := ( List.takeWhile_prefix (keep · x)).subset hy
    have hkeep : keep y x = true := by simpa using List.mem_takeWhile_imp hy
    simp [hp y hmem hkeep]
  have hsplit : l.filter p =
      (l.takeWhile (keep · x)).filter p ++ (l.dropWhile (keep · x)).filter p := by
    rw [← List.filter_append, List.takeWhile_append_dropWhile]
  rw [List.filter_append, htw, List.nil_append, List.filter_cons, if_pos hx, hsplit, htw,
    List.nil_append]

theorem insertP_filter_neg (keep : α → α → Bool) (p : α → Bool) (x : α) (l : List α)
    (hx : p x = false) :
    (insertP keep x l).filter p = l.filter p := by
  rw [insertP_eq_takeWhile]
  have hsplit : l.filter p =
      (l.takeWhile (keep · x)).filter p ++ (l.dropWhile (keep · x)).filter p := by
    rw [← List.filter_append, List.takeWhile_append_dropWhile]
  rw [List.filter_append, List.filter_cons, if_neg (by simp [hx]), hsplit]

/-! ## Helper lemmas: VarUint bytes -/

theorem varUintBytes_small {v : Nat} (h : v < 128) : varUintBytes v = [v] := by
  rw [varUintBytes]
  simp [h]

theorem varUintBytes_large {v : Nat} (h : 128 ≤ v) :
    varUintBytes v = (v % 128 + 128) :: varUintBytes (v / 128) := by
  rw [varUintBytes]
  rw [dif_neg (by omega)]

theorem bitlen_pos {v : Nat} (h : v ≠ 0) : bitlen v = bitlen (v / 2) + 1 := by
  rw [bitlen]
  rw [dif_neg h]

theorem bitlen_le_iff (k : Nat) : ∀ v, bitlen v ≤ k ↔ v < 2 ^ k := by
  induction k with
  | zero =>
    intro v
    constructor
    · intro h
      by_contra hc
      rw [bitlen_pos (by omega)] at h
      omega
    · intro h
      have : v = 0 := by omega
      subst this
      rw [bitlen]
      simp
  | succ k ih =>
    intro v
    by_cases h0 : v = 0
    · subst h0
      rw [bitlen]
      simp
    · rw [bitlen_pos h0]
      have hpow : (2:Nat) ^ (k + 1) = 2 ^ k * 2 := by ring
      rw [hpow]
      constructor
      · intro h
        have := (ih (v / 2)).1 (by omega)
        omega
      · intro h
        have := (ih (v / 2)).2 (by omega)
        omega

theorem bitlen_div128 {v : Nat} (h : 128 ≤ v) : bitlen v = bitlen (v / 128) + 7 := by
  have h1 : v / 2 / 2 = v / 4 := by omega
  have h2 : v / 4 / 2 = v / 8 := by omega
  have h3 : v / 8 / 2 = v / 16 := by omega
  have h4 : v / 16 / 2 = v / 32 := by omega
  have h5 : v / 32 / 2 = v / 64 := by omega
  have h6 : v / 64 / 2 = v / 128 := by omega
  rw [bitlen_pos (by omega), bitlen_pos (by omega), h1, bitlen_pos (by omega), h2,
    bitlen_pos (by omega), h3, bitlen_pos (by omega), h4, bitlen_pos (by omega), h5,
    bitlen_pos (by omega), h6]

theorem varUintBytes_len (v : Nat) : (varUintBytes v).length = max 1 ((bitlen v + 6) / 7) := by
  induction v using Nat.strong_induction_on with
  | _ v ih =>
    by_cases h : v < 128
    · rw [varUintBytes_small h]
      have h7 : (2:Nat) ^ 7 = 128 := by norm_num
      have hb : bitlen v ≤ 7 := (bitlen_le_iff 7 v).2 (by rw [h7]; omega)
      simp only [List.length_singleton]
      omega
    · rw [varUintBytes_large (by omega)]
      have hrec := ih (v / 128) (by omega)
      have hb := bitlen_div128 (v := v) (by omega)
      have h7 : (2:Nat) ^ 7 = 128 := by norm_num
      have hb8 : 8 ≤ bitlen v := by
        by_contra hc
        have := (bitlen_le_iff 7 v).1 (by omega)
        omega
      simp only [List.length_cons, hrec]
      omega

theorem varUintBytes_len_le_ten {v : Nat} (h : v < 2 ^ 64) :
    (varUintBytes v).length ≤ 10 := by
  rw [varUintBytes_len]
  have : bitlen v ≤ 64 := (bitlen_le_iff 64 v).2 h
  omega

theorem varUintBytes_ne_nil (v : Nat) : varUintBytes v ≠ [] := by
  by_cases h : v < 128
  · rw [varUintBytes_small h]
    simp
  · rw [varUintBytes_large (by omega)]
    simp

theorem varUintBytes_dropLast_high (v : Nat) :
    ∀ b ∈ (varUintBytes v).dropLast, 128 ≤ b := by
  induction v using Nat.strong_induction_on with
  | _ v ih =>
    by_cases h : v < 128
    · rw [varUintBytes_small h]
      simp
    · rw [varUintBytes_large (by omega)]
      intro b hb
      rcases hx : varUintBytes (v / 128) with _ | ⟨c, cs⟩
      · exact absurd hx (varUintBytes_ne_nil _)
      · rw [hx] at hb
        simp only [List.dropLast_cons₂, List.mem_cons] at hb
        rcases hb with rfl | hb
        · omega
        · have := ih (v / 128) (by omega) b
          rw [hx] at this
          exact this hb

theorem getLastD_cons_irrel (c : Nat) (cs : List Nat) (d d' : Nat) :
    (c :: cs).getLastD d = (c :: cs).getLastD d' := by
  cases cs with
  | nil => rfl
  | cons x xs =>
    rw [List.getLastD_cons]
    conv_rhs => rw [List.getLastD_cons]

theorem varUintBytes_getLast_low (v : Nat) : (varUintBytes v).getLastD 0 < 128 := by
  induction v using Nat.strong_induction_on with
  | _ v ih =>
    by_cases h : v < 128
    · rw [varUintBytes_small h]
      simpa using h
    · rw [varUintBytes_large (by omega)]
      rw [List.getLastD_cons]
      have hne := varUintBytes_ne_nil (v / 128)
      have hlow := ih (v / 128) (by omega)
      rcases hx : varUintBytes (v / 128) with _ | ⟨c, cs⟩
      · exact absurd hx hne
      · rw [hx] at hlow
        rw [getLastD_cons_irrel c cs _ 0]
        exact hlow

theorem varUintBytes_foldr (v : Nat) :
    (varUintBytes v).foldr (fun b acc => b % 128 + 128 * acc) 0 = v := by
  induction v using Nat.strong_induction_on with
  | _ v ih =>
    by_cases h : v < 128
    · rw [varUintBytes_small h]
      simp
      omega
    · rw [varUintBytes_large (by omega)]
      simp only [List.foldr_cons]
      rw [ih (v / 128) (by omega)]
      omega

theorem readVarUintGo_parses :
    ∀ (budget v : Nat) (rest : List Nat) (shift acc : Nat),
      (varUintBytes v).length ≤ budget + 1 →
      readVarUintGo budget (varUintBytes v ++ rest) shift acc =
        .ok (acc + v * 2 ^ shift, rest) := by
  intro budget
  induction budget with
  | zero =>
    intro v rest shift acc hlen
    have hv : v < 128 := by
      by_contra hc
      rw [varUintBytes_large (by omega)] at hlen
      simp only [List.length_cons] at hlen
      have h1 : 1 ≤ (varUintBytes (v / 128)).length :=
        List.length_pos.2 (varUintBytes_ne_nil _)
      omega
    rw [varUintBytes_small hv]
    simp only [List.cons_append, List.nil_append, readVarUintGo]
    rw [if_pos (by omega)]
    have hm : v % 128 = v := by omega
    simp [hm]
  | succ budget ih =>
    intro v rest shift acc hlen
    by_cases hv : v < 128
    · rw [varUintBytes_small hv]
      simp only [List.cons_append, List.nil_append, readVarUintGo]
      rw [if_pos (by omega)]
      have hm : v % 128 = v := by omega
      simp [hm]
    · rw [varUintBytes_large (by omega)]
      simp only [List.cons_append, List.append_eq, readVarUintGo]
      rw [if_neg (by omega)]
      have hlen' : (varUintBytes (v / 128)).length ≤ budget + 1 := by
        rw [varUintBytes_large (by omega)] at hlen
        simpa using hlen
      rw [ih (v / 128) rest (shift + 7) _ hlen']
      have hmod : (v % 128 + 128) % 128 = v % 128 := by omega
      rw [hmod]
      have key : acc + v % 128 * 2 ^ shift + v / 128 * 2 ^ (shift + 7)
          = acc + v * 2 ^ shift := by
        have hpow : (2:Nat) ^ (shift + 7) = 2 ^ shift * 128 := by
          rw [pow_add]
          norm_num
        have hv128 := Nat.mod_add_div v 128
        calc acc + v % 128 * 2 ^ shift + v / 128 * 2 ^ (shift + 7)
            = acc + (v % 128 + 128 * (v / 128)) * 2 ^ shift := by rw [hpow]; ring
          _ = acc + v * 2 ^ shift := by rw [hv128]
      rw [key]

theorem readVarUint_parses {v : Nat} (rest : List Nat)
    (h : (varUintBytes v).length ≤ 10) :
    readVarUint (varUintBytes v ++ rest) = .ok (v, rest) := by
  have := readVarUintGo_parses 9 v rest 0 0 (by omega)
  simpa [readVarUint] using this

theorem toInt32_ofNat {v : Nat} (hv : v < 2147483648) : toInt32 (v : Int) = (v : Int) := by
  unfold toInt32
  have hmod : (v : Int) % 4294967296 = (v : Int) := by omega
  simp only [hmod]
  rw [if_pos (by exact_mod_cast hv)]

theorem jsAnd127_ofNat {v : Nat} (hv : v < 2147483648) :
    jsAnd127 (v : Int) = ((v % 128 : Nat) : Int) := by
  unfold jsAnd127
  rw [toInt32_ofNat hv]
  omega

theorem jsShr7_ofNat {v : Nat} (hv : v < 2147483648) :
    jsShr7 (v : Int) = ((v / 128 : Nat) : Int) := by
  unfold jsShr7
  rw [toInt32_ofNat hv]
  rw [Int.fdiv_eq_ediv _ (by omega)]
  omega

theorem writeVarUintLoop_eq :
    ∀ (fuel v : Nat), v < 2147483648 → (varUintBytes v).length ≤ fuel →
      writeVarUintLoop fuel (v : Int) = some (varUintBytes v) := by
  intro fuel
  induction fuel with
  | zero =>
    intro v hv hlen
    have h1 : 1 ≤ (varUintBytes v).length :=
      List.length_pos.2 (varUintBytes_ne_nil v)
    omega
  | succ fuel ih =>
    intro v hv hlen
    simp only [writeVarUintLoop]
    rw [jsShr7_ofNat hv, jsAnd127_ofNat hv]
    by_cases hsmall : v < 128
    · have hdiv : v / 128 = 0 := by omega
      rw [hdiv]
      simp only [Nat.cast_zero, if_pos rfl, reduceIte]
      rw [varUintBytes_small hsmall]
      have : v % 128 = v := by omega
      simp [this]
    · have hdiv : v / 128 ≠ 0 := by omega
      have hne : ((v / 128 : Nat) : Int) ≠ 0 := by exact_mod_cast hdiv
      rw [if_neg hne, if_neg hne]
      have hlen' : (varUintBytes (v / 128)).length ≤ fuel := by
        rw [varUintBytes_large (by omega)] at hlen
        simpa using hlen
      rw [ih (v / 128) (by omega) hlen']
      have harg : (((v % 128 : Nat) : Int) + 128).toNat = v % 128 + 128 := by omega
      rw [show varUintBytes v = (v % 128 + 128) :: varUintBytes (v / 128) from
        varUintBytes_large (by omega)]
      simp [harg]
      omega

/-! ## Claim theorems: C10, C9, C2 -/

/-- Claim C10: for every integer argument `b`, `FixedSizeBufStream.writeByte(b)`
never fails (it is total) and stores `b` modulo 256 (`Uint8Array`
truncation): values outside `[0, 256)` are silently wrapped rather than
rejected, the byte count `size` still increases by exactly 1, and the
return value is always 1.  The hypothesis is the class invariant
`curOffset < FIXED_SIZE` maintained by construction. -/
theorem C10_writeByte_wraps (s : FixedSizeBufStream) (b : Int)
    (h : s.curOffset < FIXED_SIZE) :
    (fsbWriteByte s b).2 = 1 ∧
    fsbSize (fsbWriteByte s b).1 = fsbSize s + 1 ∧
    fsbWrittenCell s (fsbWriteByte s b).1 = (b.emod 256).toNat ∧
    (b.emod 256).toNat < 256 := by
  have hmod : (b.emod 256).toNat < 256 := by
    have h1 : 0 ≤ b.emod 256 := Int.emod_nonneg b (by omega)
    have h2 : b.emod 256 < 256 := Int.emod_lt_of_pos b (by omega)
    omega
  by_cases hwrap : s.curOffset + 1 = FIXED_SIZE
  · have hw : fsbWriteByte s b =
        ({ priors := s.priors ++
             [fun i => if i = s.curOffset ∧ s.curOffset < FIXED_SIZE
                       then (b.emod 256).toNat else s.cur i],
           priorSize := s.priorSize + FIXED_SIZE,
           cur := fun _ => 0, curOffset := 0 }, 1) := by
      simp only [fsbWriteByte]
      rw [if_pos hwrap]
    rw [hw]
    refine ⟨rfl, ?_, ?_, hmod⟩
    · show s.priorSize + FIXED_SIZE + 0 = s.priorSize + s.curOffset + 1
      omega
    · unfold fsbWrittenCell
      rw [if_pos hwrap, List.getLastD_concat]
      exact if_pos ⟨rfl, h⟩
  · have hw : fsbWriteByte s b =
        ({ s with
           cur := fun i => if i = s.curOffset ∧ s.curOffset < FIXED_SIZE
                           then (b.emod 256).toNat else s.cur i,
           curOffset := s.curOffset + 1 }, 1) := by
      simp only [fsbWriteByte]
      rw [if_neg hwrap]
    rw [hw]
    refine ⟨rfl, ?_, ?_, hmod⟩
    · show s.priorSize + (s.curOffset + 1) = s.priorSize + s.curOffset + 1
      omega
    · unfold fsbWrittenCell
      rw [if_neg hwrap]
      exact if_pos ⟨rfl, h⟩

/-- Witness for C10 at a concrete out-of-range argument: writing `-300`
to a fresh stream stores `-300 mod 256 = 212`, grows `size` to 1 and
returns 1. -/
theorem C10_witness :
    (fsbWriteByte fsbInit (-300)).2 = 1 ∧
    fsbSize (fsbWriteByte fsbInit (-300)).1 = 1 ∧
    fsbWrittenCell fsbInit (fsbWriteByte fsbInit (-300)).1 = 212 := by
  have h := C10_writeByte_wraps fsbInit (-300) (by norm_num [fsbInit, FIXED_SIZE])
  refine ⟨h.1, ?_, ?_⟩
  · rw [h.2.1]
    rfl
  · rw [h.2.2.1]
    rfl

/-- Claim C9: doubles are written as exactly 8 little-endian bytes carrying
the IEEE-754 bit pattern and `decodeFloat` reads exactly 8 bytes back;
writing then decoding returns the pattern unchanged, and re-encoding a
decoded byte string reproduces it bit-identically (doubles are embedded
as their 64-bit patterns). -/
theorem C9_float_roundtrip :
    (∀ (p : Nat) (rest : List Nat), p < 2 ^ 64 →
      (writeFloat p).length = 8 ∧
      decodeFloat (writeFloat p ++ rest) = .ok (p, rest)) ∧
    (∀ (b0 b1 b2 b3 b4 b5 b6 b7 : Nat) (rest : List Nat),
      b0 < 256 → b1 < 256 → b2 < 256 → b3 < 256 →
      b4 < 256 → b5 < 256 → b6 < 256 → b7 < 256 →
      decodeFloat (b0 :: b1 :: b2 :: b3 :: b4 :: b5 :: b6 :: b7 :: rest) =
        .ok (b0 + 256 * b1 + 256 ^ 2 * b2 + 256 ^ 3 * b3 + 256 ^ 4 * b4
              + 256 ^ 5 * b5 + 256 ^ 6 * b6 + 256 ^ 7 * b7, rest) ∧
      writeFloat (b0 + 256 * b1 + 256 ^ 2 * b2 + 256 ^ 3 * b3 + 256 ^ 4 * b4
              + 256 ^ 5 * b5 + 256 ^ 6 * b6 + 256 ^ 7 * b7) =
        [b0, b1, b2, b3, b4, b5, b6, b7]) := by
  constructor
  · intro p rest hp
    constructor
    · rfl
    · simp only [writeFloat, List.cons_append, List.nil_append, decodeFloat,
        readBytesN, bind, Except.bind]
      congr 2
      omega
  · intro b0 b1 b2 b3 b4 b5 b6 b7 rest h0 h1 h2 h3 h4 h5 h6 h7
    constructor
    · simp only [decodeFloat, readBytesN, bind, Except.bind]
    · simp only [writeFloat, List.cons.injEq, and_true]
      refine ⟨by omega, by omega, by omega, by omega, by omega, by omega, by omega, by omega⟩

/-- Witness for C9 at the claim's quiet NaN with payload
`0x7ff8000000000001`: the 8-byte pattern survives encode, decode and
re-encode bit-identically. -/
theorem C9_witness :
    decodeFloat (writeFloat 0x7ff8000000000001 ++ []) = .ok (0x7ff8000000000001, []) ∧
    writeFloat 0x7ff8000000000001 = [1, 0, 0, 0, 0, 0, 248, 127] := by
  refine ⟨(C9_float_roundtrip.1 0x7ff8000000000001 [] (by norm_num)).2, ?_⟩
  rfl

/-- Claim C2 counterexample: the claim quantifies over all `v ∈ [0, 2^64)`,
but `writeVarUint` does its arithmetic with JS 32-bit shifts.  At
`v = 2^32` the first `uval & 0x7f` is 0 and `uval >>= 7` truncates the
value to 0, so a single byte `[0]` is written; decoding it yields 0, not
`2^32`, and the byte length is 1, not `max(1, ⌈bitlen(2^32)/7⌉) = 5`. -/
theorem C2_counterexample :
    (4294967296 : Nat) < 2 ^ 64 ∧
    writeVarUint 4294967296 = some [0] ∧
    readVarUint [0] = .ok (0, []) ∧
    (0 : Nat) ≠ 4294967296 ∧
    [(0 : Nat)].length ≠ max 1 ((bitlen 4294967296 + 6) / 7) := by
  refine ⟨by norm_num, by rfl, by rfl, by norm_num, ?_⟩
  have h64 : (2:Nat) ^ 64 = 18446744073709551616 := by norm_num
  have h32 : bitlen 4294967296 = 33 := by
    have hle : bitlen 4294967296 ≤ 33 := by
      refine (bitlen_le_iff 33 4294967296).2 ?_
      norm_num
    have hgt : ¬ bitlen 4294967296 ≤ 32 := by
      intro hc
      have := (bitlen_le_iff 32 4294967296).1 hc
      norm_num at this
    omega
  rw [h32]
  simp

/-- Claim C2 (amended): the stated VarUint properties hold for every
`v ∈ [0, 2^31)` (not `[0, 2^64)`): `writeVarUint v` terminates and emits
exactly the LEB128-style groups `varUintBytes v`, the reader decodes them
back to `v` leaving the rest of the stream, the byte length is
`max(1, ⌈bitlen(v)/7⌉)`, every byte except the last has its high bit set,
the last does not, and the 7-bit groups compose least-significant-first. -/
theorem C2_varUint_amended (v : Nat) (rest : List Nat) (hv : v < 2 ^ 31) :
    writeVarUint v = some (varUintBytes v) ∧
    readVarUint (varUintBytes v ++ rest) = .ok (v, rest) ∧
    (varUintBytes v).length = max 1 ((bitlen v + 6) / 7) ∧
    (∀ b ∈ (varUintBytes v).dropLast, 128 ≤ b) ∧
    (varUintBytes v).getLastD 0 < 128 ∧
    (varUintBytes v).foldr (fun b acc => b % 128 + 128 * acc) 0 = v := by
  have hv' : v < 2147483648 := by
    have : (2:Nat) ^ 31 = 2147483648 := by norm_num
    omega
  refine ⟨?_, ?_, varUintBytes_len v, varUintBytes_dropLast_high v,
    varUintBytes_getLast_low v, varUintBytes_foldr v⟩
  · apply writeVarUintLoop_eq 64 v hv'
    have h31 : bitlen v ≤ 31 := by
      refine (bitlen_le_iff 31 v).2 ?_
      have : (2:Nat) ^ 31 = 2147483648 := by norm_num
      omega
    rw [varUintBytes_len]
    omega
  · apply readVarUint_parses
    have h31 : bitlen v ≤ 31 := by
      refine (bitlen_le_iff 31 v).2 ?_
      have : (2:Nat) ^ 31 = 2147483648 := by norm_num
      omega
    rw [varUintBytes_len]
    omega

/-- Witness for the amended C2 at `v = 1000000`. -/
theorem C2_witness :
    writeVarUint 1000000 = some [192, 132, 61] ∧
    readVarUint [192, 132, 61] = .ok (1000000, []) := by
  have h := C2_varUint_amended 1000000 [] (by norm_num)
  have hb : varUintBytes 1000000 = [192, 132, 61] := by
    rw [varUintBytes_large (by norm_num), varUintBytes_large (by norm_num),
      varUintBytes_small (by norm_num)]
  rw [hb] at h
  exact ⟨h.1, by simpa using h.2.1⟩

/-! ## Claim theorems: C6, C7, C1 -/

/-- Claim C6: for every list `[x0, ..., x_{n-1}]` encountered while
building the ranked tree, `build` produces the right-fold
`cons(x0, cons(x1, ... cons(x_{n-1}, nil)))` — a chain of rank-2 `cons`
nodes whose first child at depth `i` is the encoding of `x_i` and whose
innermost second child is `nil` — and the empty list maps to the single
`nil` leaf.  `buildElems` builds the elements in the source's
state-threading order (last element first) and returns their trees in
list order; the produced tree is exactly their right-fold. -/
theorem C6_list_right_fold (g : GrammarL) (st : BSt) (xs : List JSVal) :
    build g st (.varr xs) =
      (buildElems g st xs).map
        (fun r => (r.1, r.2.foldr (fun t acc => TN.mk .scons [t, acc]) (TN.mk .snil []))) ∧
    build g st (.varr []) = some (st, TN.mk .snil []) := by
  constructor
  · induction xs generalizing st with
    | nil => simp [build, buildElems]
    | cons x xs ih =>
      simp only [build, buildElems]
      rw [ih]
      cases hbe : buildElems g st xs with
      | none => simp
      | some p =>
        obtain ⟨st1, ts⟩ := p
        simp only [Option.map_some', Option.bind_some, Option.some_bind]
        cases hb : build g st1 x with
        | none => simp
        | some q =>
          obtain ⟨st2, t⟩ := q
          simp
  · simp [build]

/-- Claim C7 counterexample: the claim (and spec scenario 4) says a
3-element list `[s0, s1, s2]` serializes as
`cons(cons(cons(nil, s2), s1), s0)`, i.e. with the accumulated tail as
first child and the element as second.  The source (`build`, lines
304-312) appends the element first and the tail second, so
`[true, false, null]` builds to
`cons(true, cons(false, cons(null, nil)))`, which is a different tree. -/
theorem C7_counterexample :
    build [] ⟨[], []⟩ (.varr [.vtrue, .vfalse, .vnull]) =
      some (⟨[], []⟩,
        TN.mk .scons [TN.mk .strue [],
          TN.mk .scons [TN.mk .sfalse [],
            TN.mk .scons [TN.mk .snull [], TN.mk .snil []]]]) ∧
    TN.mk .scons [TN.mk .strue [],
        TN.mk .scons [TN.mk .sfalse [],
          TN.mk .scons [TN.mk .snull [], TN.mk .snil []]]] ≠
      TN.mk .scons [TN.mk .scons [TN.mk .scons [TN.mk .snil [], TN.mk .snull []],
          TN.mk .sfalse []], TN.mk .strue []] := by
  constructor
  · simp [build]
  · simp

/-- Claim C7 (amended): a 3-element statement list `[s0, s1, s2]`
serializes as `cons(s0, cons(s1, cons(s2, nil)))` (element first, tail
second), and replaying that serialization yields a list of length 3 with
the elements in their original order.  The first conjunct is the encoder
side (hypotheses: each element builds, in the source's last-to-first
state-threading order).  The second is the decoder side: if replaying
each `toks_i` in front of its continuation yields `v_i` consuming exactly
`toks_i`, then replaying the cons-chain serialization yields
`[v0, v1, v2]` and leaves `rest`. -/
theorem C7_amended :
    (∀ (g : GrammarL) (st st1 st2 st3 : BSt) (s0 s1 s2 : JSVal) (t0 t1 t2 : TN),
      build g st s2 = some (st1, t2) →
      build g st1 s1 = some (st2, t1) →
      build g st2 s0 = some (st3, t0) →
      build g st (.varr [s0, s1, s2]) =
        some (st3, TN.mk .scons [t0, TN.mk .scons [t1, TN.mk .scons [t2, TN.mk .snil []]]])) ∧
    (∀ (c : DCtx) (k : Nat) (acts : List JSVal) (toks0 toks1 toks2 rest : List Nat)
       (v0 v1 v2 : JSVal),
      replayT (k + 3) c (toks0 ++ tagCons c :: (toks1 ++ tagCons c :: (toks2 ++ tagNil c :: rest))) acts =
        .ok (v0, tagCons c :: (toks1 ++ tagCons c :: (toks2 ++ tagNil c :: rest))) →
      replayT (k + 2) c (toks1 ++ tagCons c :: (toks2 ++ tagNil c :: rest)) acts =
        .ok (v1, tagCons c :: (toks2 ++ tagNil c :: rest)) →
      replayT (k + 1) c (toks2 ++ tagNil c :: rest) acts =
        .ok (v2, tagNil c :: rest) →
      replayT (k + 4) c
          (tagCons c :: (toks0 ++ tagCons c :: (toks1 ++ tagCons c :: (toks2 ++ tagNil c :: rest)))) acts =
        .ok (.varr [v0, v1, v2], rest)) := by
  constructor
  · intro g st st1 st2 st3 s0 s1 s2 t0 t1 t2 h2 h1 h0
    simp [build, h2, h1, h0]
  · intro c k acts toks0 toks1 toks2 rest v0 v1 v2 h0 h1 h2
    have hnil : replayT (k + 1) c (tagNil c :: rest) acts = .ok (.varr [], rest) := by
      rw [replayT]
      rw [if_pos rfl]
    have h2' : replayT (k + 2) c (tagCons c :: (toks2 ++ tagNil c :: rest)) acts =
        .ok (.varr [v2], rest) := by
      rw [show k + 2 = (k + 1) + 1 from rfl, replayT]
      rw [if_neg (by simp only [tagCons, tagNil]; omega),
          if_neg (by simp only [tagCons, tagNull]; omega), if_pos rfl, h2]
      simp [hnil]
    have h1' : replayT (k + 3) c
        (tagCons c :: (toks1 ++ tagCons c :: (toks2 ++ tagNil c :: rest))) acts =
        .ok (.varr [v1, v2], rest) := by
      rw [show k + 3 = (k + 2) + 1 from rfl, replayT]
      rw [if_neg (by simp only [tagCons, tagNil]; omega),
          if_neg (by simp only [tagCons, tagNull]; omega), if_pos rfl, h1]
      simp [h2']
    rw [show k + 4 = (k + 3) + 1 from rfl, replayT]
    rw [if_neg (by simp only [tagCons, tagNil]; omega),
        if_neg (by simp only [tagCons, tagNull]; omega), if_pos rfl, h0]
    simp [h1']

/-- Witness for the amended C7: the concrete 3-element list
`[true, false, null]` on the encoder side, and the concrete token stream
`[cons, true, cons, false, cons, null, nil]` (with 0 parameters, so the
tags are 2, 4, 3, 1, 0) on the decoder side. -/
theorem C7_witness :
    build [] ⟨[], []⟩ (.varr [.vtrue, .vfalse, .vnull]) =
      some (⟨[], []⟩,
        TN.mk .scons [TN.mk .strue [],
          TN.mk .scons [TN.mk .sfalse [],
            TN.mk .scons [TN.mk .snull [], TN.mk .snil []]]]) ∧
    replayT 4 ⟨0, [0], [0, 0], 0, [], [], [], []⟩ [2, 4, 2, 3, 2, 1, 0] [] =
      .ok (.varr [.vtrue, .vfalse, .vnull], []) := by
  constructor
  · exact C7_amended.1 [] ⟨[], []⟩ ⟨[], []⟩ ⟨[], []⟩ ⟨[], []⟩ .vtrue .vfalse .vnull
      (TN.mk .strue []) (TN.mk .sfalse []) (TN.mk .snull [])
      (by simp [build]) (by simp [build]) (by simp [build])
  · exact C7_amended.2 ⟨0, [0], [0, 0], 0, [], [], [], []⟩ 0 [] [4] [3] [1] []
      .vtrue .vfalse .vnull rfl rfl rfl

/-- Claim C1 (code bug): the round-trip `decode(encode(T)) ≡ T` with
bit-identical doubles fails because `TreeRePairApplicator.num`
(encode_binast.ts lines 337-345) interns numbers in a JS `Map` keyed by
the number value, whose key equality is SameValueZero: `-0` collides with
`+0` (and all NaN payloads collide).  Building the list `[+0.0, -0.0]`
(processed last-to-first, so `-0.0` is interned first) labels **both**
leaves with the `-0.0` terminal and leaves a single pool entry, so the
decoder returns `-0.0` for the `+0.0` literal — not bit-identical. -/
theorem C1_interning_collapse :
    build [] ⟨[], []⟩ (.varr [.vnum 0, .vnum 9223372036854775808]) =
      some (⟨[], [(9223372036854775808, 2)]⟩,
        TN.mk .scons [TN.mk (.numC 9223372036854775808) [],
          TN.mk .scons [TN.mk (.numC 9223372036854775808) [], TN.mk .snil []]]) ∧
    canonSVZ 0 = canonSVZ 9223372036854775808 ∧
    (0 : Nat) ≠ 9223372036854775808 := by
  refine ⟨?_, ?_, by norm_num⟩
  · simp [build, internNum, internNumGo, canonSVZ, isNaNBits]
  · simp [canonSVZ, isNaNBits]

/-! ## Claim theorems: C5, C8 -/

/-- Claim C5 counterexample: the TreeRePair decoder (part_000) performs
**no** root-kind check — `decodeAbstractSyntax` returns the replayed
start value directly (line 194).  The stream
`P=0, builtins=6, empty histogram, no strings, no numerics, start = null`
replays to `null`, which is not a node of any kind, yet decoding succeeds
instead of failing with `UnexpectedRoot`.  (The `Script`-or-`Module`
assertion cited by the claim lives in the legacy memoization decoder,
decode_binast.ts lines 143-145.) -/
theorem C5_counterexample :
    decodeAbstract 9 [(s2u "Script", [s2u "statements"])] [0, 6, 0, 0, 0, 0, 1] =
      .ok .vnull ∧
    (∀ k props, JSVal.vnull ≠ JSVal.vnode k props) := by
  exact ⟨rfl, fun k props h => JSVal.noConfusion h⟩

/-- Claim C5 (amended): after replaying the start tree, the TreeRePair
decoder returns the replayed value without any root-kind check: every
stream whose start tree is a single built-in primitive tag `b`
(`b < 6`, `b ≠ 2` since `cons` has rank 2) decodes successfully to that
primitive — `nil ↦ []`, `null`, `false`, `true`, `undefined` — none of
which is a `Script` or `Module` node. -/
theorem C5_no_root_check (b : Nat) (hb : b < 6) (hne : b ≠ 2) :
    decodeAbstract 9 [(s2u "Script", [s2u "statements"])] [0, 6, 0, 0, 0, 0, b] =
      .ok ([JSVal.varr [], .vnull, .vnull, .vfalse, .vtrue, .vundef].getD b .vnull) := by
  interval_cases b
  · rfl
  · rfl
  · exact absurd rfl hne
  · rfl
  · rfl
  · rfl

/-- Witness for the amended C5 at the `true` tag. -/
theorem C5_witness :
    decodeAbstract 9 [(s2u "Script", [s2u "statements"])] [0, 6, 0, 0, 0, 0, 4] =
      .ok .vtrue := by
  have h := C5_no_root_check 4 (by omega) (by omega)
  simpa using h

/-- Claim C8: the TreeRePair decoder reads the built-in count from the
header and fails for every stream in which it is not exactly 6 — with the
`not yet implemented` error below 6 and the `decoder too old` error above
6, the two throw sites the spec groups as `VersionMismatch`
(part_000 lines 34-38).  In particular a stream whose built-in count is 7
fails decode, and a stream whose count is 6 proceeds (here all the way to
a successful replay). -/
theorem C8_version_check :
    (∀ (fuel : Nat) (g : List (Str × List Str)) (p n : Nat) (rest : List Nat),
      p < 2 ^ 64 → n < 2 ^ 64 → n ≠ 6 →
      decodeAbstract fuel g (varUintBytes p ++ (varUintBytes n ++ rest)) =
        .error (if n < 6 then DErr.fewerBuiltins else DErr.tooOldBuiltins)) ∧
    decodeAbstract 9 [(s2u "Script", [s2u "statements"])] [0, 7] = .error .tooOldBuiltins ∧
    decodeAbstract 9 [(s2u "Script", [s2u "statements"])] [0, 6, 0, 0, 0, 0, 5] =
      .ok .vundef := by
  refine ⟨?_, by rfl, by rfl⟩
  intro fuel g p n rest hp hn hne
  unfold decodeAbstract
  simp only [readVarUint_parses _ (varUintBytes_len_le_ten hp),
    readVarUint_parses _ (varUintBytes_len_le_ten hn)]
  by_cases h6 : n < 6
  · simp [h6]
  · simp [h6, hne]

/-- Witness for C8 at built-in count 7 (parameter count 0, empty rest). -/
theorem C8_witness : decodeAbstract 0 [] [0, 7] = .error .tooOldBuiltins := by
  have h := C8_version_check.1 0 [] 0 7 [] (by norm_num) (by norm_num) (by norm_num)
  have hb0 : varUintBytes 0 = [0] := varUintBytes_small (by norm_num)
  have hb7 : varUintBytes 7 = [7] := varUintBytes_small (by norm_num)
  rw [hb0, hb7] at h
  simpa using h

/-! ## Claim theorems: C4 -/

theorem lookupA_setA_self (r : List (Str × α)) (k : Str) (v : α) :
    lookupA (setA r k v) k = some v := by
  induction r with
  | nil => simp [setA, lookupA]
  | cons hd rest ih =>
    obtain ⟨k', w⟩ := hd
    simp only [setA]
    by_cases h : k' = k
    · simp [lookupA, h]
    · simp [lookupA, h, ih]

/-- Claim C4: for every non-primitive, non-list node the grammar
recoverer visits, it computes the kind from the runtime type name,
collects the node's own property names excluding `type`, sorts them, and
either installs that sorted list for the kind or checks it equals the
previously installed list; if two nodes of the same kind have differing
property sets, `visit` fails (`InconsistentShape`), and if a value is
none of the supported primitive classes it fails
(`UnsupportedPrimitive`).  Conjuncts: (1) an installed list that differs
from the node's sorted filtered names makes `visit` fail with
`InconsistentShape`; (2) otherwise `visit` installs the sorted filtered
name list under the kind and proceeds to visit the property values in
that order; (3) the installed list is sorted in JS string order, is a
permutation of the own property names minus `type`, and excludes `type`;
(4) an unsupported primitive fails with `UnsupportedPrimitive`. -/
theorem C4_grammar_recoverer :
    (∀ (rules : Rules) (kind : Str) (props : List (Str × JSVal)) (expected : List Str),
      lookupA rules kind = some expected → expected ≠ sortedNames props →
      visit rules (.vnode kind props) = .error .inconsistentShape) ∧
    (∀ (rules : Rules) (kind : Str) (props : List (Str × JSVal)),
      (lookupA rules kind = none ∨ lookupA rules kind = some (sortedNames props)) →
      visit rules (.vnode kind props) =
        visitN (setA rules kind (sortedNames props)) (sortedNames props) props ∧
      lookupA (setA rules kind (sortedNames props)) kind = some (sortedNames props)) ∧
    (∀ props : List (Str × JSVal),
      (sortedNames props).Pairwise (fun a b => strLt b a = false) ∧
      List.Perm (sortedNames props) ((props.map Prod.fst).filter (fun n => n != s2u "type")) ∧
      (∀ n ∈ sortedNames props, n ≠ s2u "type")) ∧
    (∀ rules : Rules, visit rules .vother = .error .unsupportedPrimitive) := by
  refine ⟨?_, ?_, ?_, ?_⟩
  · intro rules kind props expected hlk hne
    rw [visit]
    rw [hlk]
    simp [hne]
  · intro rules kind props h
    refine ⟨?_, lookupA_setA_self rules kind (sortedNames props)⟩
    rcases h with h | h
    · rw [visit, h]
    · rw [visit, h]
      simp
  · intro props
    refine ⟨?_, sortP_perm _ _, ?_⟩
    · exact sortP_pairwise (fun a b => strLt b a = false) (fun y x => strLt y x)
        (fun a b c hab hbc => strLe_trans hab hbc)
        (fun y x h => strLt_asymm _ _ h)
        (fun y x h => h) _
    · intro n hn
      have hmem := (sortP_perm (fun y x => strLt y x)
        ((props.map Prod.fst).filter (fun n => n != s2u "type"))).mem_iff.1 hn
      have := List.of_mem_filter hmem
      simpa using this
  · intro rules
    rw [visit]

/-- Witness for C4: a node of kind `A` (code units `[65]`) with property
`y` where the recovered grammar says `A` has property `x` fails with
`InconsistentShape`; against an empty grammar, a node of kind `A` with
property `x` installs `[x]` and proceeds. -/
theorem C4_witness :
    visit [([65], [[120]])] (.vnode [65] [([121], .vnull)]) = .error .inconsistentShape ∧
    visit [] (.vnode [65] [([120], .vnull)]) =
      visitN (setA [] [65] (sortedNames [([120], .vnull)]))
        (sortedNames [([120], .vnull)]) [([120], .vnull)] := by
  constructor
  · exact C4_grammar_recoverer.1 [([65], [[120]])] [65] [([121], .vnull)] [[120]]
      (by decide) (by decide)
  · exact (C4_grammar_recoverer.2.1 [] [65] [([120], .vnull)] (Or.inl (by decide))).1

/-! ## Helper lemmas for C3: the meta-rule grouping -/

theorem mem_metaGroup {ms : List (Nat × Nat)} {r : Nat} {m : Nat × Nat} :
    m ∈ metaGroup ms r ↔ m ∈ ms ∧ m.2 = r := by
  simp [metaGroup, List.mem_filter]

theorem mem_metaSeqOver {ms : List (Nat × Nat)} {L : List Nat} {m : Nat × Nat}
    (h : m ∈ metaSeqOver ms L) : m.2 ∈ L ∧ m ∈ ms := by
  induction L with
  | nil => simp [metaSeqOver] at h
  | cons r L' ih =>
    rcases List.mem_append.1 h with h1 | h1
    · have := mem_metaGroup.1 h1
      exact ⟨by simp [this.2], this.1⟩
    · have := ih h1
      exact ⟨List.mem_cons_of_mem r this.1, this.2⟩

theorem metaSeqOver_congr {ms ms' : List (Nat × Nat)} (L : List Nat)
    (h : ∀ r ∈ L, metaGroup ms r = metaGroup ms' r) :
    metaSeqOver ms L = metaSeqOver ms' L := by
  induction L with
  | nil => rfl
  | cons r L' ih =>
    have h2 := ih (fun r' hr' => h r' (List.mem_cons_of_mem r hr'))
    show metaGroup ms r ++ metaSeqOver ms L' = metaGroup ms' r ++ metaSeqOver ms' L'
    rw [h r (List.mem_cons_self r L'), h2]

theorem metaGroup_filter_ne {ms : List (Nat × Nat)} {r r' : Nat} (h : r' ≠ r) :
    metaGroup (ms.filter (fun m => !(m.2 == r))) r' = metaGroup ms r' := by
  simp only [metaGroup]
  rw [List.filter_filter]
  apply List.filter_congr
  intro m _
  by_cases hm : m.2 = r'
  · simp [hm, h]
  · simp [hm]

theorem metaSeqOver_filter_ne_eq (ms : List (Nat × Nat)) (L : List Nat) (r : Nat)
    (h : r ∉ L) :
    metaSeqOver ms L = metaSeqOver (ms.filter (fun m => !(m.2 == r))) L := by
  apply metaSeqOver_congr
  intro r' hr'
  have hne : r' ≠ r := by
    intro he
    subst he
    exact h hr'
  exact (metaGroup_filter_ne hne).symm

theorem filter_append_perm_not (p : α → Bool) (l : List α) :
    List.Perm (l.filter p ++ l.filter (fun a => !(p a))) l := by
  induction l with
  | nil => simp
  | cons x xs ih =>
    by_cases hx : p x
    · simp only [List.filter_cons, hx, if_true, Bool.not_true, if_false, List.cons_append]
      exact ih.cons x
    · simp only [List.filter_cons, hx, Bool.not_false, if_true, if_false]
      exact (List.perm_middle).trans (ih.cons x)

theorem metaSeqOver_perm : ∀ (L : List Nat) (ms : List (Nat × Nat)), L.Nodup →
    (∀ m ∈ ms, m.2 ∈ L) → List.Perm (metaSeqOver ms L) ms := by
  intro L
  induction L with
  | nil =>
    intro ms _ hc
    cases ms with
    | nil => exact List.Perm.refl _
    | cons m ms' => exact absurd (hc m (by simp)) (by simp)
  | cons r L' ih =>
    intro ms hN hc
    have hnc := List.nodup_cons.1 hN
    have hcov : ∀ m ∈ ms.filter (fun m => !(m.2 == r)), m.2 ∈ L' := by
      intro m hm
      have hm' := List.mem_filter.1 hm
      have h2 := hc m hm'.1
      have hne : m.2 ≠ r := by simpa using hm'.2
      rcases List.mem_cons.1 h2 with he | he
      · exact absurd he hne
      · exact he
    have hperm' := ih (ms.filter (fun m => !(m.2 == r))) hnc.2 hcov
    show List.Perm (metaGroup ms r ++ metaSeqOver ms L') ms
    rw [metaSeqOver_filter_ne_eq ms L' r hnc.1]
    refine List.Perm.trans (List.Perm.append_left _ hperm') ?_
    exact filter_append_perm_not (fun m => m.2 == r) ms

theorem ranks_sorted_nodup (ms : List (Nat × Nat)) :
    (sortRanks (ranksPresent ms)).Nodup := by
  exact ((sortP_perm _ _).nodup_iff).2 (List.nodup_dedup _)

theorem ranks_sorted_cover (ms : List (Nat × Nat)) :
    ∀ m ∈ ms, m.2 ∈ sortRanks (ranksPresent ms) := by
  intro m hm
  apply ((sortP_perm _ _).mem_iff).2
  simp only [ranksPresent, List.mem_dedup, List.mem_cons]
  right
  exact List.mem_map_of_mem Prod.snd hm

theorem metaSeq_perm (ms : List (Nat × Nat)) : List.Perm (metaSeq ms) ms :=
  metaSeqOver_perm _ ms (ranks_sorted_nodup ms) (ranks_sorted_cover ms)

theorem metaSeqOver_pairwise (ms : List (Nat × Nat)) (L : List Nat)
    (hL : L.Pairwise (· < ·)) :
    (metaSeqOver ms L).Pairwise (fun m m' => m.2 ≤ m'.2) := by
  induction L with
  | nil => simp [metaSeqOver]
  | cons r L' ih =>
    rcases List.pairwise_cons.1 hL with ⟨hr, hL'⟩
    show (metaGroup ms r ++ metaSeqOver ms L').Pairwise _
    rw [List.pairwise_append]
    refine ⟨?_, ih hL', ?_⟩
    · apply List.pairwise_of_forall_mem_list
      intro x hx y hy
      have h1 := (mem_metaGroup.1 hx).2
      have h2 := (mem_metaGroup.1 hy).2
      omega
    · intro x hx y hy
      have hx2 := (mem_metaGroup.1 hx).2
      have hy2 := (mem_metaSeqOver hy).1
      have := hr _ hy2
      omega

theorem sortRanks_pairwise_lt (ms : List (Nat × Nat)) :
    (sortRanks (ranksPresent ms)).Pairwise (· < ·) := by
  have h1 : (sortRanks (ranksPresent ms)).Pairwise (· ≤ ·) := by
    apply sortP_pairwise (fun a b : Nat => a ≤ b) (fun y x => y < x)
    · intro a b c hab hbc
      omega
    · intro y x h
      have : y < x := by simpa using h
      omega
    · intro y x h
      have : ¬ y < x := by simpa using h
      omega
  have h2 := ranks_sorted_nodup ms
  have h3 := List.Pairwise.and h1 h2
  apply h3.imp
  intro a b hab
  rcases hab with ⟨h4, h5⟩
  omega

theorem metaSeq_pairwise (ms : List (Nat × Nat)) :
    (metaSeq ms).Pairwise (fun m m' => m.2 ≤ m'.2) :=
  metaSeqOver_pairwise ms _ (sortRanks_pairwise_lt ms)

theorem metaSeqOver_filter : ∀ (L : List Nat) (ms : List (Nat × Nat)), L.Nodup →
    (∀ m ∈ ms, m.2 ∈ L) →
    ∀ r, (metaSeqOver ms L).filter (fun m => m.2 == r) = metaGroup ms r := by
  intro L
  induction L with
  | nil =>
    intro ms hN hc r
    cases ms with
    | nil => rfl
    | cons m ms' => exact absurd (hc m (by simp)) (by simp)
  | cons r0 L' ih =>
    intro ms hN hc r
    have hnc := List.nodup_cons.1 hN
    have hcov : ∀ m ∈ ms.filter (fun m => !(m.2 == r0)), m.2 ∈ L' := by
      intro m hm
      have hm' := List.mem_filter.1 hm
      have h2 := hc m hm'.1
      have hne : m.2 ≠ r0 := by simpa using hm'.2
      rcases List.mem_cons.1 h2 with he | he
      · exact absurd he hne
      · exact he
    show (metaGroup ms r0 ++ metaSeqOver ms L').filter _ = _
    rw [List.filter_append]
    by_cases hrr : r = r0
    · subst hrr
      have h1 : (metaGroup ms r).filter (fun m => m.2 == r) = metaGroup ms r := by
        apply List.filter_eq_self.2
        intro m hm
        simp [(mem_metaGroup.1 hm).2]
      have h2 : (metaSeqOver ms L').filter (fun m => m.2 == r) = [] := by
        apply List.filter_eq_nil_iff.2
        intro m hm
        have hmem := (mem_metaSeqOver hm).1
        have hne : m.2 ≠ r := by
          intro he
          rw [he] at hmem
          exact hnc.1 hmem
        simpa using hne
      rw [h1, h2, List.append_nil]
    · have h1 : (metaGroup ms r0).filter (fun m => m.2 == r) = [] := by
        apply List.filter_eq_nil_iff.2
        intro m hm
        have := (mem_metaGroup.1 hm).2
        simp only [this]
        simpa using fun he => hrr he.symm
      rw [h1, List.nil_append]
      rw [metaSeqOver_filter_ne_eq ms L' r0 hnc.1]
      rw [ih _ hnc.2 hcov r]
      exact metaGroup_filter_ne hrr

theorem metaSeq_filter (ms : List (Nat × Nat)) (r : Nat) :
    (metaSeq ms).filter (fun m => m.2 == r) = metaGroup ms r :=
  metaSeqOver_filter _ ms (ranks_sorted_nodup ms) (ranks_sorted_cover ms) r

theorem histCounts_sum_eq (ms : List (Nat × Nat)) :
    (histCounts ms).sum = ms.length := by
  have h1 : ∀ (L : List Nat),
      (L.map (fun r => (metaGroup ms r).length)).sum = (metaSeqOver ms L).length := by
    intro L
    induction L with
    | nil => rfl
    | cons r L' ih =>
      show (metaGroup ms r).length + _ = (metaGroup ms r ++ metaSeqOver ms L').length
      rw [List.length_append]
      have ih' : List.foldr (fun x1 x2 => x1 + x2) 0
          (List.map (fun r => (metaGroup ms r).length) L') = (metaSeqOver ms L').length := by
        simpa [List.sum] using ih
      rw [ih']
  have h2 := h1 (sortRanks (ranksPresent ms))
  have h3 := (metaSeq_perm ms).length_eq
  simp only [histCounts]
  rw [h2]
  exact h3

theorem rankOffsetsD_getLastD : ∀ (hist acc : List Nat), acc ≠ [] →
    ((hist.foldl (fun acc c => acc ++ [acc.getLastD 0 + c]) acc).getLastD 0) =
      acc.getLastD 0 + hist.sum := by
  intro hist
  induction hist with
  | nil =>
    intro acc _
    simp
  | cons c hist ih =>
    intro acc hne
    show ((hist.foldl _ (acc ++ [acc.getLastD 0 + c])).getLastD 0) = _
    rw [ih (acc ++ [acc.getLastD 0 + c]) (by simp)]
    rw [List.getLastD_concat]
    simp only [List.sum_cons]
    omega

theorem numMetaD_eq_sum (hist : List Nat) : numMetaD hist = hist.sum := by
  have := rankOffsetsD_getLastD hist [0] (by simp)
  simpa [numMetaD, rankOffsetsD] using this

theorem sortNumsPairs_stable (l : List (Nat × Nat)) (cval : Nat) :
    (sortNumsPairs l).filter (fun m => m.2 == cval) =
      l.filter (fun m => m.2 == cval) := by
  induction l with
  | nil => rfl
  | cons x xs ih =>
    show (insertP (fun y x => x.2 < y.2) x (sortNumsPairs xs)).filter _ = _
    by_cases hx : x.2 = cval
    · rw [insertP_filter_pos]
      · rw [ih]
        simp [List.filter_cons, hx]
      · intro y hy hk
        have hlt : x.2 < y.2 := by simpa using hk
        have : y.2 ≠ cval := by omega
        simpa using this
      · simpa using hx
    · rw [insertP_filter_neg _ _ _ _ (by simpa using hx)]
      rw [ih]
      simp [List.filter_cons, hx]

theorem sortNumsPairs_pairwise (l : List (Nat × Nat)) :
    (sortNumsPairs l).Pairwise (fun p q => q.2 ≤ p.2) := by
  apply sortP_pairwise (fun p q : Nat × Nat => q.2 ≤ p.2) (fun y x => x.2 < y.2)
  · intro a b c hab hbc
    omega
  · intro y x h
    have : x.2 < y.2 := by simpa using h
    omega
  · intro y x h
    have : ¬ x.2 < y.2 := by simpa using h
    omega

theorem sortStrsPairs_pairwise (l : List (Str × Nat))
    (hs : (l.map Prod.fst).Nodup) :
    (sortStrsPairs l).Pairwise (fun p q => strLt p.1 q.1 = true) := by
  have h1 : (sortStrsPairs l).Pairwise (fun p q => strLt q.1 p.1 = false) := by
    apply sortP_pairwise (fun p q : Str × Nat => strLt q.1 p.1 = false)
      (fun y x => strLt y.1 x.1)
    · intro a b c hab hbc
      exact strLe_trans hab hbc
    · intro y x h
      exact strLt_asymm _ _ h
    · intro y x h
      exact h
  have h2 : ((sortStrsPairs l).map Prod.fst).Nodup := by
    refine (List.Perm.nodup_iff ?_).2 hs
    exact (sortP_perm _ l).map Prod.fst
  have h3 : (sortStrsPairs l).Pairwise (fun p q => p.1 ≠ q.1) :=
    (List.pairwise_map.1 h2)
  have h4 := List.Pairwise.and h1 h3
  apply h4.imp
  intro a b hab
  rcases hab with ⟨h5, h6⟩
  rcases strLt_total a.1 b.1 h6 with h7 | h7
  · exact h7
  · exact absurd h7 (by simp [h5])

/-! ## Claim theorem: C3 -/

/-- Claim C3: `encodeAbstractSyntax` assigns every symbol a unique
non-negative integer code (its index in `symList`), consecutive within
partitions laid out in the fixed order parameters, the six built-ins
`nil, null, cons, false, true, undefined`, meta-rules grouped by rank
ascending (within a rank in discovery order), grammar kinds in insertion
order, string constants in strict lexicographic ascending order, and
numeric constants in non-increasing use-count order with ties broken by
first occurrence; and the decoder's partition boundaries
(part_000 lines 39-82), computed from the header counts alone, coincide
with the positions of those partitions.  The `Nodup` hypotheses hold in
the source because parameters live in a `Set` and the other symbol
families are keyed by maps. -/
theorem C3_symbol_space (a : AppState)
    (hp : a.params.Nodup) (hm : (a.metas.map Prod.fst).Nodup)
    (hk : a.kinds.Nodup) (hs : (a.strs.map Prod.fst).Nodup)
    (hn : (a.nums.map Prod.fst).Nodup) :
    (symList a).Nodup ∧
    (symList a).take a.params.length = a.params.map Sym.param ∧
    ((symList a).drop a.params.length).take 6 =
      [Sym.snil, Sym.snull, Sym.scons, Sym.sfalse, Sym.strue, Sym.sundef] ∧
    ((symList a).drop (a.params.length + 6)).take a.metas.length =
      (metaSeq a.metas).map (fun m => Sym.meta m.1) ∧
    ((symList a).drop (a.params.length + 6 + a.metas.length)).take a.kinds.length =
      a.kinds.map Sym.kind ∧
    ((symList a).drop
        (a.params.length + 6 + a.metas.length + a.kinds.length)).take a.strs.length =
      (sortStrsPairs a.strs).map (fun p => Sym.strC p.1) ∧
    (symList a).drop
        (a.params.length + 6 + a.metas.length + a.kinds.length + a.strs.length) =
      (sortNumsPairs a.nums).map (fun p => Sym.numC p.1) ∧
    (metaSeq a.metas).Pairwise (fun m m' => m.2 ≤ m'.2) ∧
    (∀ r, (metaSeq a.metas).filter (fun m => m.2 == r) = metaGroup a.metas r) ∧
    (sortStrsPairs a.strs).Pairwise (fun p q => strLt p.1 q.1 = true) ∧
    (sortNumsPairs a.nums).Pairwise (fun p q => q.2 ≤ p.2) ∧
    (∀ cval, (sortNumsPairs a.nums).filter (fun m => m.2 == cval) =
      a.nums.filter (fun m => m.2 == cval)) ∧
    decoderFirsts a.params.length (histCounts a.metas) a.kinds.length a.strs.length =
      (a.params.length, a.params.length + 6, a.params.length + 6 + a.metas.length,
       a.params.length + 6 + a.metas.length + a.kinds.length,
       a.params.length + 6 + a.metas.length + a.kinds.length + a.strs.length) := by
  have hlen1 : (a.params.map Sym.param).length = a.params.length := by simp
  have hlen3 : ((metaSeq a.metas).map (fun m => Sym.meta m.1)).length = a.metas.length := by
    rw [List.length_map]
    exact (metaSeq_perm a.metas).length_eq
  have hlen4 : (a.kinds.map Sym.kind).length = a.kinds.length := by simp
  have hlen5 : ((sortStrsPairs a.strs).map (fun p => Sym.strC p.1)).length = a.strs.length := by
    rw [List.length_map]
    exact (sortP_perm _ a.strs).length_eq
  have e0 : symList a = (a.params.map Sym.param) ++
      ([Sym.snil, Sym.snull, Sym.scons, Sym.sfalse, Sym.strue, Sym.sundef] ++
        ((metaSeq a.metas).map (fun m => Sym.meta m.1) ++
          (a.kinds.map Sym.kind ++
            ((sortStrsPairs a.strs).map (fun p => Sym.strC p.1) ++
              (sortNumsPairs a.nums).map (fun p => Sym.numC p.1))))) := by
    simp [symList, List.append_assoc]
  have d1 : (symList a).drop a.params.length =
      [Sym.snil, Sym.snull, Sym.scons, Sym.sfalse, Sym.strue, Sym.sundef] ++
        ((metaSeq a.metas).map (fun m => Sym.meta m.1) ++
          (a.kinds.map Sym.kind ++
            ((sortStrsPairs a.strs).map (fun p => Sym.strC p.1) ++
              (sortNumsPairs a.nums).map (fun p => Sym.numC p.1)))) := by
    rw [e0]
    exact List.drop_left' hlen1
  have d2 : (symList a).drop (a.params.length + 6) =
      (metaSeq a.metas).map (fun m => Sym.meta m.1) ++
        (a.kinds.map Sym.kind ++
          ((sortStrsPairs a.strs).map (fun p => Sym.strC p.1) ++
            (sortNumsPairs a.nums).map (fun p => Sym.numC p.1))) := by
    rw [← List.drop_drop, d1]
    exact List.drop_left' rfl
  have d3 : (symList a).drop (a.params.length + 6 + a.metas.length) =
      a.kinds.map Sym.kind ++
        ((sortStrsPairs a.strs).map (fun p => Sym.strC p.1) ++
          (sortNumsPairs a.nums).map (fun p => Sym.numC p.1)) := by
    rw [← List.drop_drop, d2]
    exact List.drop_left' hlen3
  have d4 : (symList a).drop (a.params.length + 6 + a.metas.length + a.kinds.length) =
      (sortStrsPairs a.strs).map (fun p => Sym.strC p.1) ++
        (sortNumsPairs a.nums).map (fun p => Sym.numC p.1) := by
    rw [← List.drop_drop, d3]
    exact List.drop_left' hlen4
  have d5 : (symList a).drop
      (a.params.length + 6 + a.metas.length + a.kinds.length + a.strs.length) =
      (sortNumsPairs a.nums).map (fun p => Sym.numC p.1) := by
    rw [← List.drop_drop, d4]
    exact List.drop_left' hlen5
  have n1 : (a.params.map Sym.param).Nodup :=
    hp.map (fun x y h => by simpa using h)
  have n2 : ([Sym.snil, Sym.snull, Sym.scons, Sym.sfalse, Sym.strue, Sym.sundef]).Nodup := by
    decide
  have n3 : ((metaSeq a.metas).map (fun m => Sym.meta m.1)).Nodup := by
    have hfst : ((metaSeq a.metas).map Prod.fst).Nodup :=
      (((metaSeq_perm a.metas).map Prod.fst).nodup_iff).2 hm
    rw [show (fun m : Nat × Nat => Sym.meta m.1) = Sym.meta ∘ Prod.fst from rfl,
      ← List.map_map]
    exact hfst.map (fun x y h => by simpa using h)
  have n4 : (a.kinds.map Sym.kind).Nodup :=
    hk.map (fun x y h => by simpa using h)
  have n5 : ((sortStrsPairs a.strs).map (fun p => Sym.strC p.1)).Nodup := by
    have hfst : ((sortStrsPairs a.strs).map Prod.fst).Nodup :=
      (((sortP_perm _ a.strs).map Prod.fst).nodup_iff).2 hs
    rw [show (fun p : Str × Nat => Sym.strC p.1) = Sym.strC ∘ Prod.fst from rfl,
      ← List.map_map]
    exact hfst.map (fun x y h => by simpa using h)
  have n6 : ((sortNumsPairs a.nums).map (fun p => Sym.numC p.1)).Nodup := by
    have hfst : ((sortNumsPairs a.nums).map Prod.fst).Nodup :=
      (((sortP_perm _ a.nums).map Prod.fst).nodup_iff).2 hn
    rw [show (fun p : Nat × Nat => Sym.numC p.1) = Sym.numC ∘ Prod.fst from rfl,
      ← List.map_map]
    exact hfst.map (fun x y h => by simpa using h)
  have nd56 : ((sortStrsPairs a.strs).map (fun p => Sym.strC p.1) ++
      (sortNumsPairs a.nums).map (fun p => Sym.numC p.1)).Nodup := by
    refine n5.append n6 ?_
    intro x h5 h6
    obtain ⟨p, _, rfl⟩ := List.mem_map.1 h5
    obtain ⟨q, _, he⟩ := List.mem_map.1 h6
    exact Sym.noConfusion he
  have nd456 : (a.kinds.map Sym.kind ++
      ((sortStrsPairs a.strs).map (fun p => Sym.strC p.1) ++
        (sortNumsPairs a.nums).map (fun p => Sym.numC p.1))).Nodup := by
    refine n4.append nd56 ?_
    intro x h4 h56
    obtain ⟨p, _, rfl⟩ := List.mem_map.1 h4
    rcases List.mem_append.1 h56 with h' | h'
    · obtain ⟨q, _, he⟩ := List.mem_map.1 h'
      exact Sym.noConfusion he
    · obtain ⟨q, _, he⟩ := List.mem_map.1 h'
      exact Sym.noConfusion he
  have nd3456 : ((metaSeq a.metas).map (fun m => Sym.meta m.1) ++
      (a.kinds.map Sym.kind ++
        ((sortStrsPairs a.strs).map (fun p => Sym.strC p.1) ++
          (sortNumsPairs a.nums).map (fun p => Sym.numC p.1)))).Nodup := by
    refine n3.append nd456 ?_
    intro x h3 hrest
    obtain ⟨p, _, rfl⟩ := List.mem_map.1 h3
    rcases List.mem_append.1 hrest with h' | h'
    · obtain ⟨q, _, he⟩ := List.mem_map.1 h'
      exact Sym.noConfusion he
    · rcases List.mem_append.1 h' with h'' | h''
      · obtain ⟨q, _, he⟩ := List.mem_map.1 h''
        exact Sym.noConfusion he
      · obtain ⟨q, _, he⟩ := List.mem_map.1 h''
        exact Sym.noConfusion he
  have nd23456 : (([Sym.snil, Sym.snull, Sym.scons, Sym.sfalse, Sym.strue, Sym.sundef] : List Sym) ++
      ((metaSeq a.metas).map (fun m => Sym.meta m.1) ++
        (a.kinds.map Sym.kind ++
          ((sortStrsPairs a.strs).map (fun p => Sym.strC p.1) ++
            (sortNumsPairs a.nums).map (fun p => Sym.numC p.1))))).Nodup := by
    refine n2.append nd3456 ?_
    intro x h2 hrest
    fin_cases h2 <;>
      · simp only [List.mem_append, List.mem_map] at hrest
        rcases hrest with ⟨q, _, he⟩ | ⟨q, _, he⟩ | ⟨q, _, he⟩ | ⟨q, _, he⟩ <;>
          exact Sym.noConfusion he
  have ndAll : (symList a).Nodup := by
    rw [e0]
    refine n1.append nd23456 ?_
    intro x h1 hrest
    obtain ⟨p, _, rfl⟩ := List.mem_map.1 h1
    simp only [List.mem_append, List.mem_map, List.mem_cons, List.not_mem_nil] at hrest
    rcases hrest with h' | ⟨q, _, he⟩ | ⟨q, _, he⟩ | ⟨q, _, he⟩ | ⟨q, _, he⟩
    · rcases h' with he | he | he | he | he | he | he <;> first
        | exact Sym.noConfusion he
        | exact he.elim
    · exact Sym.noConfusion he
    · exact Sym.noConfusion he
    · exact Sym.noConfusion he
    · exact Sym.noConfusion he
  refine ⟨ndAll, ?_, ?_, ?_, ?_, ?_, d5,
    metaSeq_pairwise a.metas, metaSeq_filter a.metas,
    sortStrsPairs_pairwise a.strs hs, sortNumsPairs_pairwise a.nums,
    sortNumsPairs_stable a.nums, ?_⟩
  · rw [e0]
    exact List.take_left' hlen1
  · rw [d1]
    exact List.take_left' rfl
  · rw [d2]
    exact List.take_left' hlen3
  · rw [d3]
    exact List.take_left' hlen4
  · rw [d4]
    exact List.take_left' hlen5
  · simp only [decoderFirsts, numMetaD_eq_sum, histCounts_sum_eq]

/-- Witness for C3 at a concrete applicator state: 2 parameters, 3
meta-rules of ranks 2, 0, 2, one grammar kind, two interned strings and
two interned numbers.  The code list has no duplicates and the decoder's
boundary computation yields the firsts 2, 8, 11, 12, 14. -/
theorem C3_witness :
    (symList ⟨[5, 9], [(0, 2), (1, 0), (2, 2)], [[65]],
      [([98], 1), ([97], 2)], [(7, 1), (9, 3)]⟩).Nodup ∧
    decoderFirsts 2 (histCounts [(0, 2), (1, 0), (2, 2)]) 1 2 = (2, 8, 11, 12, 14) := by
  have h := C3_symbol_space
    ⟨[5, 9], [(0, 2), (1, 0), (2, 2)], [[65]], [([98], 1), ([97], 2)], [(7, 1), (9, 3)]⟩
    (by decide) (by decide) (by decide) (by decide) (by decide)
  exact ⟨h.1, by decide⟩

end Binjs
